import Mathlib

/-!
# AVL tree (`src/main.cpp`): shallow embedding and verified properties

The C++ class template `AVLTree<T>` stores a possibly-null owning pointer
`std::unique_ptr<Node>` to a node `{data, left, right, height}`.

* `NodePtr α` embeds `std::unique_ptr<Node>`: `null` is the null pointer,
  `node data left right height` a pointer to a node with those four fields.
* The element type `T` is embedded as a type with a linear order (the source
  uses only `<` and `>` on it).
* `int height` is embedded as `Int`. In `updateHeight`, the rotations and `insert`
  the addition `1 + max(...)` is taken in unbounded integers: on a tree that
  satisfies the height invariant every stored height is the true height, which
  stays far below `INT_MAX` for every tree that fits in memory. For statements about
  the rotations on arbitrary nodes, `updateHeight32`, `rightRotate32` and
  `leftRotate32` embed the same functions with the signed 32-bit addition made
  partial (its overflow is undefined behaviour in the source); wherever they
  return, the versions with unbounded heights return the same node.
* Dereferencing a null pointer is undefined behaviour in the source; every
  function that dereferences is embedded as an `Option`-valued function that
  yields `none` exactly where the source would dereference null.
-/

namespace AVLTree

/-- Embedding of `std::unique_ptr<Node>`: null, or a node with the fields
`data`, `left`, `right`, `height` (in the order of the source's struct). -/
inductive NodePtr (α : Type) where
  | null : NodePtr α
  | node (data : α) (left : NodePtr α) (right : NodePtr α) (height : Int) : NodePtr α
  deriving DecidableEq, Repr

open NodePtr

variable {α : Type}

/-- Source `getHeight`: `node ? node->height : 0`. -/
def getHeight : NodePtr α → Int
  | null => 0
  | node _ _ _ h => h

/-- Source `getBalance`:
`node ? getHeight(node->left) - getHeight(node->right) : 0`. -/
def getBalance : NodePtr α → Int
  | null => 0
  | node _ l r _ => getHeight l - getHeight r

/-- Source `updateHeight`: `node->height = 1 + max(getHeight(left), getHeight(right))`.
The source dereferences `node`, so a null argument yields `none`. -/
def updateHeight : NodePtr α → Option (NodePtr α)
  | null => none
  | node d l r _ => some (node d l r (1 + max (getHeight l) (getHeight r)))

/-- Source `rightRotate(y)`: `x = y->left; T2 = x->right; x->right = y;
x->right->left = T2; updateHeight(x->right); updateHeight(x); return x`.
`none` when `y` or `y->left` is null. -/
def rightRotate : NodePtr α → Option (NodePtr α)
  | null => none
  | node yd yl yr yh =>
    match yl with
    | null => none
    | node xd xl T2 xh =>
      (updateHeight (node yd T2 yr yh)).bind fun xr =>
        updateHeight (node xd xl xr xh)

/-- Source `leftRotate(x)`: `y = x->right; T2 = y->left; y->left = x;
y->left->right = T2; updateHeight(y->left); updateHeight(y); return y`.
`none` when `x` or `x->right` is null. -/
def leftRotate : NodePtr α → Option (NodePtr α)
  | null => none
  | node xd xl xr xh =>
    match xr with
    | null => none
    | node yd T2 yr yh =>
      (updateHeight (node xd xl T2 xh)).bind fun yl =>
        updateHeight (node yd yl yr yh)

/-- Read of `node->left->data`; `none` when `node` or `node->left` is null. -/
def leftData : NodePtr α → Option α
  | node _ (node ld _ _ _) _ _ => some ld
  | _ => none

/-- Read of `node->right->data`; `none` when `node` or `node->right` is null. -/
def rightData : NodePtr α → Option α
  | node _ _ (node rd _ _ _) _ => some rd
  | _ => none

/-- Assignment `node->left = p`; `none` when `node` is null. -/
def setLeft : NodePtr α → NodePtr α → Option (NodePtr α)
  | null, _ => none
  | node d _ r h, p => some (node d p r h)

/-- Assignment `node->right = p`; `none` when `node` is null. -/
def setRight : NodePtr α → NodePtr α → Option (NodePtr α)
  | null, _ => none
  | node d l _ h, p => some (node d l p h)

/-- Read of `node->left`; `none` when `node` is null. -/
def getLeft : NodePtr α → Option (NodePtr α)
  | null => none
  | node _ l _ _ => some l

/-- Read of `node->right`; `none` when `node` is null. -/
def getRight : NodePtr α → Option (NodePtr α)
  | null => none
  | node _ _ r _ => some r

section Ordered

variable [LinearOrder α]

/-- Evaluation of the short-circuit condition `balance > 1 && value < node->left->data`
(`gt = false`) or `balance > 1 && value > node->left->data` (`gt = true`): the child
is read only when the balance test succeeds. -/
def leftHeavyCond (n : NodePtr α) (balance : Int) (value : α) (gt : Bool) : Option Bool :=
  if balance > 1 then
    (leftData n).bind fun ld => some (if gt then decide (value > ld) else decide (value < ld))
  else some false

/-- Evaluation of the short-circuit condition `balance < -1 && value > node->right->data`
(`gt = true`) or `balance < -1 && value < node->right->data` (`gt = false`). -/
def rightHeavyCond (n : NodePtr α) (balance : Int) (value : α) (gt : Bool) : Option Bool :=
  if balance < -1 then
    (rightData n).bind fun rd => some (if gt then decide (value > rd) else decide (value < rd))
  else some false

/-- Lines 73-99 of the source's recursive `insert`: recompute the height of `node`,
compute its balance and apply the first of the four rotation cases whose
condition holds, in the source's order (Left Left, Right Right, Left Right,
Right Left); otherwise return the node. -/
def rebalance (n0 : NodePtr α) (value : α) : Option (NodePtr α) :=
  (updateHeight n0).bind fun n =>
  let balance := getBalance n
  -- Left Left Case
  (leftHeavyCond n balance value false).bind fun c1 =>
  if c1 then rightRotate n else
  -- Right Right Case
  (rightHeavyCond n balance value true).bind fun c2 =>
  if c2 then leftRotate n else
  -- Left Right Case
  (leftHeavyCond n balance value true).bind fun c3 =>
  if c3 then
    (getLeft n).bind fun l => (leftRotate l).bind fun l1 =>
      (setLeft n l1).bind fun n1 => rightRotate n1
  else
  -- Right Left Case
  (rightHeavyCond n balance value false).bind fun c4 =>
  if c4 then
    (getRight n).bind fun r => (rightRotate r).bind fun r1 =>
      (setRight n r1).bind fun n1 => leftRotate n1
  else some n

/-- Source private `insert(std::unique_ptr<Node> node, const T& value)`. -/
def insert : NodePtr α → α → Option (NodePtr α)
  | null, value => some (node value null null 1)
  | node d l r h, value =>
    if value < d then
      (insert l value).bind fun l1 => rebalance (node d l1 r h) value
    else if value > d then
      (insert r value).bind fun r1 => rebalance (node d l r1 h) value
    else some (node d l r h)

end Ordered

/-- Source `inorderTraversal(node, result)`: appends the keys of `node` in
order (left subtree, key, right subtree) to the vector `result`. -/
def inorderTraversal : NodePtr α → List α → List α
  | null, result => result
  | node d l r _, result => inorderTraversal r (inorderTraversal l result ++ [d])

/-- Source public `getInorder()` on the tree whose root is `root`. -/
def getInorder (root : NodePtr α) : List α :=
  inorderTraversal root []

/-- The public `insert(value)` applied successively to the values of a list,
starting from the tree with root `root` (the loop of the driver):
`root = insert(std::move(root), value)` for each value in turn. -/
def insertAll [LinearOrder α] : NodePtr α → List α → Option (NodePtr α)
  | root, [] => some root
  | root, v :: vs => (insert root v).bind fun root1 => insertAll root1 vs

/-- The tree obtained from a default-constructed (empty) tree by inserting the
values of a list one by one. -/
def build [LinearOrder α] (values : List α) : Option (NodePtr α) :=
  insertAll null values

/-! ### Specification-level notions -/

/-- Keys of a tree in in-order (left subtree, key, right subtree). -/
def keys : NodePtr α → List α
  | null => []
  | node d l r _ => keys l ++ d :: keys r

/-- Number of nodes. -/
def size : NodePtr α → Nat
  | null => 0
  | node _ l r _ => size l + 1 + size r

/-- True height: number of nodes on a longest path from the root down
(empty tree 0, leaf 1). -/
def trueHeight : NodePtr α → Nat
  | null => 0
  | node _ l r _ => 1 + max (trueHeight l) (trueHeight r)

/-- Height invariant: every node's stored `height` equals
`1 + max(getHeight(left), getHeight(right))`. -/
def HeightInv : NodePtr α → Prop
  | null => True
  | node _ l r h => h = 1 + max (getHeight l) (getHeight r) ∧ HeightInv l ∧ HeightInv r

/-- Balance invariant: for every node, `|height(left) − height(right)| ≤ 1`
(stored heights, absent subtree 0). -/
def Balanced : NodePtr α → Prop
  | null => True
  | node _ l r _ => |getHeight l - getHeight r| ≤ 1 ∧ Balanced l ∧ Balanced r

/-- Balance invariant stated on the true heights of the subtrees. -/
def TrueBalanced : NodePtr α → Prop
  | null => True
  | node _ l r _ =>
    |(trueHeight l : Int) - (trueHeight r : Int)| ≤ 1 ∧ TrueBalanced l ∧ TrueBalanced r

/-- BST order invariant: for every node, all keys in `left` are `<` the node's key
and all keys in `right` are `>` the node's key. -/
def IsBST [LinearOrder α] : NodePtr α → Prop
  | null => True
  | node d l r _ => (∀ x ∈ keys l, x < d) ∧ (∀ x ∈ keys r, d < x) ∧ IsBST l ∧ IsBST r

/-- The three structural invariants together. -/
def IsAVL [LinearOrder α] (t : NodePtr α) : Prop :=
  IsBST t ∧ HeightInv t ∧ Balanced t

instance decHeightInv : (t : NodePtr α) → Decidable (HeightInv t)
  | null => isTrue trivial
  | node _ l r h =>
    have := decHeightInv l
    have := decHeightInv r
    inferInstanceAs
      (Decidable (h = 1 + max (getHeight l) (getHeight r) ∧ HeightInv l ∧ HeightInv r))

instance decBalanced : (t : NodePtr α) → Decidable (Balanced t)
  | null => isTrue trivial
  | node _ l r _ =>
    have := decBalanced l
    have := decBalanced r
    inferInstanceAs (Decidable (|getHeight l - getHeight r| ≤ 1 ∧ Balanced l ∧ Balanced r))

instance decTrueBalanced : (t : NodePtr α) → Decidable (TrueBalanced t)
  | null => isTrue trivial
  | node _ l r _ =>
    have := decTrueBalanced l
    have := decTrueBalanced r
    inferInstanceAs (Decidable
      (|(trueHeight l : Int) - (trueHeight r : Int)| ≤ 1 ∧ TrueBalanced l ∧ TrueBalanced r))

instance decIsBST [LinearOrder α] : (t : NodePtr α) → Decidable (IsBST t)
  | null => isTrue trivial
  | node d l r _ =>
    have := decIsBST l
    have := decIsBST r
    inferInstanceAs
      (Decidable ((∀ x ∈ keys l, x < d) ∧ (∀ x ∈ keys r, d < x) ∧ IsBST l ∧ IsBST r))

instance decIsAVL [LinearOrder α] (t : NodePtr α) : Decidable (IsAVL t) :=
  inferInstanceAs (Decidable (IsBST t ∧ HeightInv t ∧ Balanced t))

/-- Shape of a tree whose height has just grown by inserting `k` below its root:
the subtree on the side of `k` is exactly one higher than the other one. -/
def Grew [LinearOrder α] : NodePtr α → α → Prop
  | null, _ => False
  | node d l r _, k =>
    (k < d ∧ getHeight l = getHeight r + 1) ∨ (d < k ∧ getHeight r = getHeight l + 1)

/-- Every node's stored `height` equals the true height of the subtree rooted at it. -/
def HeightsExact : NodePtr α → Prop
  | null => True
  | node d l r h => h = (trueHeight (node d l r h) : Int) ∧ HeightsExact l ∧ HeightsExact r

/-- Everything the recursive `insert` guarantees on a tree that satisfies the
three invariants. -/
structure InsertSpec [LinearOrder α] (t : NodePtr α) (k : α) (t' : NodePtr α) : Prop where
  avl : IsAVL t'
  mem_keys : ∀ x, x ∈ keys t' ↔ x = k ∨ x ∈ keys t
  size_eq : size t' = if k ∈ keys t then size t else size t + 1
  height : getHeight t' = getHeight t ∨
    (getHeight t' = getHeight t + 1 ∧ (t = null ∨ Grew t' k))
  root : ∀ d l r h d' l' r' h', t = node d l r h → t' = node d' l' r' h' → d' ≠ d → h' = h
  same : k ∈ keys t → t' = t

/-- The keys 1, ..., 609 in breadth-first (level) order of the Fibonacci tree of height
13, the sparsest tree of that height satisfying the balance invariant: its left subtree
is the Fibonacci tree of height 12, its right subtree the one of height 11, and keys are
numbered in in-order. Inserted in this order, every key becomes a new leaf of a tree that
is already balanced, so no rotation is triggered. -/
def fibKeys : List Int :=
  [377, 233, 521, 144, 322, 466, 576, 89, 199, 288, 356, 432, 500, 555, 597, 55, 123, 178,
   220, 267, 309, 343, 369, 411, 453, 487, 513, 542, 568, 589, 605, 34, 76, 110, 136, 165,
   191, 212, 228, 254, 280, 301, 317, 335, 351, 364, 374, 398, 424, 445, 461, 479, 495, 508,
   518, 534, 550, 563, 573, 584, 594, 602, 608, 21, 47, 68, 84, 102, 118, 131, 141, 157, 173,
   186, 196, 207, 217, 225, 231, 246, 262, 275, 285, 296, 306, 314, 320, 330, 340, 348, 354,
   361, 367, 372, 376, 390, 406, 419, 429, 440, 450, 458, 464, 474, 484, 492, 498, 505, 511,
   516, 520, 529, 539, 547, 553, 560, 566, 571, 575, 581, 587, 592, 596, 600, 604, 607, 609,
   13, 29, 42, 52, 63, 73, 81, 87, 97, 107, 115, 121, 128, 134, 139, 143, 152, 162, 170, 176,
   183, 189, 194, 198, 204, 210, 215, 219, 223, 227, 230, 232, 241, 251, 259, 265, 272, 278,
   283, 287, 293, 299, 304, 308, 312, 316, 319, 321, 327, 333, 338, 342, 346, 350, 353, 355,
   359, 363, 366, 368, 371, 373, 375, 385, 395, 403, 409, 416, 422, 427, 431, 437, 443, 448,
   452, 456, 460, 463, 465, 471, 477, 482, 486, 490, 494, 497, 499, 503, 507, 510, 512, 515,
   517, 519, 526, 532, 537, 541, 545, 549, 552, 554, 558, 562, 565, 567, 570, 572, 574, 579,
   583, 586, 588, 591, 593, 595, 599, 601, 603, 606, 8, 18, 26, 32, 39, 45, 50, 54, 60, 66,
   71, 75, 79, 83, 86, 88, 94, 100, 105, 109, 113, 117, 120, 122, 126, 130, 133, 135, 138,
   140, 142, 149, 155, 160, 164, 168, 172, 175, 177, 181, 185, 188, 190, 193, 195, 197, 202,
   206, 209, 211, 214, 216, 218, 222, 224, 226, 229, 238, 244, 249, 253, 257, 261, 264, 266,
   270, 274, 277, 279, 282, 284, 286, 291, 295, 298, 300, 303, 305, 307, 311, 313, 315, 318,
   325, 329, 332, 334, 337, 339, 341, 345, 347, 349, 352, 358, 360, 362, 365, 370, 382, 388,
   393, 397, 401, 405, 408, 410, 414, 418, 421, 423, 426, 428, 430, 435, 439, 442, 444, 447,
   449, 451, 455, 457, 459, 462, 469, 473, 476, 478, 481, 483, 485, 489, 491, 493, 496, 502,
   504, 506, 509, 514, 524, 528, 531, 533, 536, 538, 540, 544, 546, 548, 551, 557, 559, 561,
   564, 569, 578, 580, 582, 585, 590, 598, 5, 11, 16, 20, 24, 28, 31, 33, 37, 41, 44, 46, 49,
   51, 53, 58, 62, 65, 67, 70, 72, 74, 78, 80, 82, 85, 92, 96, 99, 101, 104, 106, 108, 112,
   114, 116, 119, 125, 127, 129, 132, 137, 147, 151, 154, 156, 159, 161, 163, 167, 169, 171,
   174, 180, 182, 184, 187, 192, 201, 203, 205, 208, 213, 221, 236, 240, 243, 245, 248, 250,
   252, 256, 258, 260, 263, 269, 271, 273, 276, 281, 290, 292, 294, 297, 302, 310, 324, 326,
   328, 331, 336, 344, 357, 380, 384, 387, 389, 392, 394, 396, 400, 402, 404, 407, 413, 415,
   417, 420, 425, 434, 436, 438, 441, 446, 454, 468, 470, 472, 475, 480, 488, 501, 523, 525,
   527, 530, 535, 543, 556, 577, 3, 7, 10, 12, 15, 17, 19, 23, 25, 27, 30, 36, 38, 40, 43, 48,
   57, 59, 61, 64, 69, 77, 91, 93, 95, 98, 103, 111, 124, 146, 148, 150, 153, 158, 166, 179,
   200, 235, 237, 239, 242, 247, 255, 268, 289, 323, 379, 381, 383, 386, 391, 399, 412, 433,
   467, 522, 2, 4, 6, 9, 14, 22, 35, 56, 90, 145, 234, 378, 1]

/-- Key stored at the root (`node->data`); `none` for the null pointer. -/
def rootKey : NodePtr α → Option α
  | null => none
  | node d _ _ _ => some d

/-- The nodes visited by the recursive `insert` for the key `value`, outermost first:
the node itself, then the nodes visited in the child chosen by lines 65-68 of the
source; the descent ends at a null pointer or at a node holding `value`. -/
def searchPath [LinearOrder α] : NodePtr α → α → List (NodePtr α)
  | null, _ => []
  | node d l r h, value =>
    node d l r h ::
      (if value < d then searchPath l value
       else if value > d then searchPath r value
       else [])

/-- Lines 65-71 of the recursive `insert`: the node after the recursive call into the
chosen child has returned and its result has been stored in `node->left` or
`node->right`, before `updateHeight(node)` of line 73. `none` for a null node, for a
key equal to the node's key (the source returns at line 70 and never reaches line 73)
and when the recursive call fails. -/
def descend [LinearOrder α] : NodePtr α → α → Option (NodePtr α)
  | null, _ => none
  | node d l r h, value =>
    if value < d then
      (insert l value).bind fun l1 => some (node d l1 r h)
    else if value > d then
      (insert r value).bind fun r1 => some (node d l r1 h)
    else none

/-- The rebalancing case split at a node `m` whose height has just been recomputed, for
the inserted key `k`: the balance factor lies in `{-2, ..., 2}`; when it is `2` the left
child is present and `k` differs from its key, when it is `-2` the right child is
present and `k` differs from its key; the four conditions of the source (Left Left,
Right Right, Left Right, Right Left) can all be evaluated, exactly one of them holds
when the balance factor exceeds 1 in magnitude and none holds otherwise. -/
def CaseSplit [LinearOrder α] (m : NodePtr α) (k : α) : Prop :=
  -2 ≤ getBalance m ∧ getBalance m ≤ 2 ∧
  (getBalance m = 2 → ∃ ld, leftData m = some ld ∧ k ≠ ld) ∧
  (getBalance m = -2 → ∃ rd, rightData m = some rd ∧ k ≠ rd) ∧
  ∃ c1 c2 c3 c4,
    leftHeavyCond m (getBalance m) k false = some c1 ∧
    rightHeavyCond m (getBalance m) k true = some c2 ∧
    leftHeavyCond m (getBalance m) k true = some c3 ∧
    rightHeavyCond m (getBalance m) k false = some c4 ∧
    [c1, c2, c3, c4].count true = if 1 < |getBalance m| then 1 else 0

/-! ### The rotations with the `int` arithmetic of the source made explicit

The field `height` of the source is a 32-bit `int`, and `1 + std::max(...)` in
`updateHeight` is a signed addition whose overflow is undefined behaviour. The
definitions below embed `updateHeight` and the two rotations with that addition made
partial: they yield `none` on a null dereference and on signed overflow. -/

/-- Largest value of the source's `int`. -/
def INT_MAX : Int := 2147483647

/-- Smallest value of the source's `int`. -/
def INT_MIN : Int := -2147483648

/-- The integer is a value of the source's 32-bit `int`. -/
def IsInt32 (x : Int) : Prop := INT_MIN ≤ x ∧ x ≤ INT_MAX

instance decIsInt32 (x : Int) : Decidable (IsInt32 x) :=
  inferInstanceAs (Decidable (INT_MIN ≤ x ∧ x ≤ INT_MAX))

/-- The source's `a + b` on `int`: `none` when the sum is not an `int` value (signed
overflow, undefined behaviour). -/
def addInt32 (a b : Int) : Option Int :=
  if INT_MIN ≤ a + b ∧ a + b ≤ INT_MAX then some (a + b) else none

/-- Source `updateHeight` with `int` arithmetic:
`node->height = 1 + max(getHeight(left), getHeight(right))`; `none` when `node` is null
or the addition overflows. -/
def updateHeight32 : NodePtr α → Option (NodePtr α)
  | null => none
  | node d l r _ =>
    (addInt32 1 (max (getHeight l) (getHeight r))).bind fun h => some (node d l r h)

/-- Source `rightRotate(y)` with `int` arithmetic: `x = y->left; T2 = x->right;
x->right = y; x->right->left = T2; updateHeight(x->right); updateHeight(x); return x`.
`none` when `y` or `y->left` is null or a height computation overflows. -/
def rightRotate32 : NodePtr α → Option (NodePtr α)
  | null => none
  | node yd yl yr yh =>
    match yl with
    | null => none
    | node xd xl T2 xh =>
      (updateHeight32 (node yd T2 yr yh)).bind fun xr =>
        updateHeight32 (node xd xl xr xh)

/-- Source `leftRotate(x)` with `int` arithmetic: `y = x->right; T2 = y->left;
y->left = x; y->left->right = T2; updateHeight(y->left); updateHeight(y); return y`.
`none` when `x` or `x->right` is null or a height computation overflows. -/
def leftRotate32 : NodePtr α → Option (NodePtr α)
  | null => none
  | node xd xl xr xh =>
    match xr with
    | null => none
    | node yd T2 yr yh =>
      (updateHeight32 (node xd xl T2 xh)).bind fun yl =>
        updateHeight32 (node yd yl yr yh)

/-! ## Theorems -/

/-! ### Basic facts about traversal, keys and heights -/

@[simp] theorem getHeight_null : getHeight (null : NodePtr α) = 0 := rfl

@[simp] theorem getHeight_node (d : α) (l r : NodePtr α) (h : Int) :
    getHeight (node d l r h) = h := rfl

theorem inorderTraversal_eq (t : NodePtr α) (result : List α) :
    inorderTraversal t result = result ++ keys t := by
  induction t generalizing result with
  | null => simp [inorderTraversal, keys]
  | node d l r h ihl ihr => simp [inorderTraversal, keys, ihl, ihr]

theorem getInorder_eq_keys (t : NodePtr α) : getInorder t = keys t := by
  simp [getInorder, inorderTraversal_eq]

theorem length_keys (t : NodePtr α) : (keys t).length = size t := by
  induction t with
  | null => rfl
  | node d l r h ihl ihr => simp [keys, size, ihl, ihr]; omega

theorem getHeight_eq_trueHeight (t : NodePtr α) (h : HeightInv t) :
    getHeight t = (trueHeight t : Int) := by
  induction t with
  | null => rfl
  | node d l r ht ihl ihr =>
    obtain ⟨h1, h2, h3⟩ := h
    simp only [getHeight, trueHeight]
    rw [h1, ihl h2, ihr h3]
    push_cast
    rfl

theorem getHeight_nonneg (t : NodePtr α) (h : HeightInv t) : 0 ≤ getHeight t := by
  rw [getHeight_eq_trueHeight t h]; exact Int.natCast_nonneg _

theorem getHeight_pos (d : α) (l r : NodePtr α) (ht : Int) (h : HeightInv (node d l r ht)) :
    1 ≤ getHeight (node d l r ht) := by
  obtain ⟨h1, h2, h3⟩ := h
  have := getHeight_nonneg l h2
  have := getHeight_nonneg r h3
  simp only [getHeight]
  omega

theorem eq_null_of_getHeight_le_zero (t : NodePtr α) (h : HeightInv t) (h0 : getHeight t ≤ 0) :
    t = null := by
  cases t with
  | null => rfl
  | node d l r ht =>
    have := getHeight_pos d l r ht h
    omega

theorem trueBalanced_of_balanced (t : NodePtr α) (h : HeightInv t) (hb : Balanced t) :
    TrueBalanced t := by
  induction t with
  | null => trivial
  | node d l r ht ihl ihr =>
    obtain ⟨_, h2, h3⟩ := h
    obtain ⟨b1, b2, b3⟩ := hb
    refine ⟨?_, ihl h2 b2, ihr h3 b3⟩
    rw [← getHeight_eq_trueHeight l h2, ← getHeight_eq_trueHeight r h3]
    exact b1

section Ordered
variable [LinearOrder α]

theorem isBST_iff_pairwise (t : NodePtr α) : IsBST t ↔ (keys t).Pairwise (· < ·) := by
  induction t with
  | null => simp [IsBST, keys]
  | node d l r h ihl ihr =>
    simp only [IsBST, keys, List.pairwise_append, List.pairwise_cons, ihl, ihr,
      List.mem_cons]
    constructor
    · rintro ⟨h1, h2, h3, h4⟩
      refine ⟨h3, ⟨h2, h4⟩, ?_⟩
      rintro a ha b (rfl | hb)
      · exact h1 a ha
      · exact lt_trans (h1 a ha) (h2 b hb)
    · rintro ⟨h1, ⟨h2, h3⟩, h4⟩
      exact ⟨fun x hx => h4 x hx d (Or.inl rfl), h2, h1, h3⟩

end Ordered

section Ordered
variable [LinearOrder α]

/-! ### The result of `rebalance` in each of its cases -/


theorem rebalance_none (d : α) (l r : NodePtr α) (h : Int) (k : α)
    (hb1 : getHeight l - getHeight r ≤ 1) (hb2 : -1 ≤ getHeight l - getHeight r) :
    rebalance (node d l r h) k = some (node d l r (1 + max (getHeight l) (getHeight r))) := by
  have h1 : ¬ (1 < getHeight l - getHeight r) := by omega
  have h2 : ¬ (getHeight l - getHeight r < -1) := by omega
  simp [rebalance, updateHeight, getBalance, leftHeavyCond, rightHeavyCond, h1, h2]

theorem rebalance_LL (d ld : α) (ll lr r : NodePtr α) (lh h : Int) (k : α)
    (hb : 1 < lh - getHeight r) (hk : k < ld) :
    rebalance (node d (node ld ll lr lh) r h) k =
      some (node ld ll (node d lr r (1 + max (getHeight lr) (getHeight r)))
        (1 + max (getHeight ll) (1 + max (getHeight lr) (getHeight r)))) := by
  simp [rebalance, updateHeight, getBalance, leftHeavyCond, leftData, hb, hk,
    rightRotate]

theorem rebalance_LR (d ld lrd : α) (ll a b r : NodePtr α) (lrh lh h : Int) (k : α)
    (hb : 1 < lh - getHeight r) (hk : ld < k) :
    rebalance (node d (node ld ll (node lrd a b lrh) lh) r h) k =
      some (node lrd (node ld ll a (1 + max (getHeight ll) (getHeight a)))
        (node d b r (1 + max (getHeight b) (getHeight r)))
        (1 + max (1 + max (getHeight ll) (getHeight a))
          (1 + max (getHeight b) (getHeight r)))) := by
  have h2 : ¬ (lh - getHeight r < -1) := by omega
  have hk2 : ¬ (k < ld) := not_lt.mpr hk.le
  simp [rebalance, updateHeight, getBalance, leftHeavyCond, rightHeavyCond, leftData,
    hb, hk, hk2, h2, rightRotate, leftRotate, getLeft, setLeft]

theorem rebalance_RR (d rd : α) (l rl rr : NodePtr α) (rh h : Int) (k : α)
    (hb : getHeight l - rh < -1) (hk : rd < k) :
    rebalance (node d l (node rd rl rr rh) h) k =
      some (node rd (node d l rl (1 + max (getHeight l) (getHeight rl))) rr
        (1 + max (1 + max (getHeight l) (getHeight rl)) (getHeight rr))) := by
  have h1 : ¬ (1 < getHeight l - rh) := by omega
  simp [rebalance, updateHeight, getBalance, leftHeavyCond, rightHeavyCond, rightData,
    hb, hk, h1, leftRotate]

theorem rebalance_RL (d rd rld : α) (l a b rr : NodePtr α) (rlh rh h : Int) (k : α)
    (hb : getHeight l - rh < -1) (hk : k < rd) :
    rebalance (node d l (node rd (node rld a b rlh) rr rh) h) k =
      some (node rld (node d l a (1 + max (getHeight l) (getHeight a)))
        (node rd b rr (1 + max (getHeight b) (getHeight rr)))
        (1 + max (1 + max (getHeight l) (getHeight a))
          (1 + max (getHeight b) (getHeight rr)))) := by
  have h1 : ¬ (1 < getHeight l - rh) := by omega
  have hk2 : ¬ (rd < k) := not_lt.mpr hk.le
  simp [rebalance, updateHeight, getBalance, leftHeavyCond, rightHeavyCond, rightData,
    hb, hk, hk2, h1, rightRotate, leftRotate, getRight, setRight]

end Ordered

section Ordered
variable [LinearOrder α]

theorem isBST_of_keys_eq (t t' : NodePtr α) (hk : keys t' = keys t) (h : IsBST t) : IsBST t' := by
  rw [isBST_iff_pairwise] at *
  rw [hk]; exact h

theorem isBST_node (d : α) (l r : NodePtr α) (h : Int) (hl : IsBST l) (hr : IsBST r)
    (hld : ∀ x ∈ keys l, x < d) (hrd : ∀ x ∈ keys r, d < x) : IsBST (node d l r h) :=
  ⟨hld, hrd, hl, hr⟩

/-- Rebalancing after an insertion into the left subtree. -/
theorem rebalance_left_spec (d : α) (l1 r : NodePtr α) (h : Int) (k : α)
    (hl : IsAVL l1) (hr : IsAVL r) (hld : ∀ x ∈ keys l1, x < d) (hrd : ∀ x ∈ keys r, d < x)
    (hlo : getHeight r ≤ getHeight l1 + 1) (hhi : getHeight l1 ≤ getHeight r + 2)
    (hg : getHeight l1 = getHeight r + 2 → Grew l1 k) :
    ∃ t', rebalance (node d l1 r h) k = some t' ∧ IsAVL t' ∧
      keys t' = keys l1 ++ d :: keys r ∧
      ((getHeight l1 ≤ getHeight r + 1 ∧
          t' = node d l1 r (1 + max (getHeight l1) (getHeight r))) ∨
       (getHeight l1 = getHeight r + 2 ∧ getHeight t' = getHeight r + 2 ∧
          ∃ d' l' r' h', t' = node d' l' r' h' ∧ d' < d)) := by
  obtain ⟨hbl, hhl, hbal⟩ := hl
  obtain ⟨hbr, hhr, hbar⟩ := hr
  have hbst : IsBST (node d l1 r h) := isBST_node d l1 r h hbl hbr hld hrd
  by_cases hc : getHeight l1 ≤ getHeight r + 1
  · refine ⟨_, rebalance_none d l1 r h k (by omega) (by omega), ⟨?_, ?_, ?_⟩, rfl,
      Or.inl ⟨hc, rfl⟩⟩
    · exact isBST_node d l1 r _ hbl hbr hld hrd
    · exact ⟨rfl, hhl, hhr⟩
    · exact ⟨abs_le.mpr ⟨by omega, by omega⟩, hbal, hbar⟩
  · have he : getHeight l1 = getHeight r + 2 := by omega
    have hgr := hg he
    have hr0 := getHeight_nonneg r hhr
    cases l1 with
    | null => exact absurd hgr (by simp [Grew])
    | node ld ll lr lh =>
      simp only [getHeight_node] at he hlo hhi
      obtain ⟨hlh, hhll, hhlr⟩ := hhl
      obtain ⟨hlb, hbll, hblr⟩ := hbal
      rw [abs_le] at hlb
      have hll0 := getHeight_nonneg ll hhll
      have hlr0 := getHeight_nonneg lr hhlr
      have hldd : ld < d := hld ld (by simp [keys])
      rcases hgr with ⟨hk, hgh⟩ | ⟨hk, hgh⟩
      · -- Left Left
        refine ⟨_, rebalance_LL d ld ll lr r lh h k (by omega) hk, ⟨?_, ?_, ?_⟩, ?_,
          Or.inr ⟨he, ?_, _, _, _, _, rfl, hldd⟩⟩
        · exact isBST_of_keys_eq _ _ (by simp [keys]) hbst
        · exact ⟨rfl, hhll, ⟨rfl, hhlr, hhr⟩⟩
        · exact ⟨abs_le.mpr ⟨by simp only [getHeight_node]; omega,
            by simp only [getHeight_node]; omega⟩, hbll,
            abs_le.mpr ⟨by omega, by omega⟩, hblr, hbar⟩
        · simp [keys]
        · simp only [getHeight_node]; omega
      · -- Left Right
        cases lr with
        | null => simp only [getHeight_null] at hgh; omega
        | node lrd a b lrh =>
          simp only [getHeight_node] at hgh hlh hlb hlr0
          obtain ⟨hlrh, hha, hhb⟩ := hhlr
          obtain ⟨hlrb, hba, hbb⟩ := hblr
          rw [abs_le] at hlrb
          have ha0 := getHeight_nonneg a hha
          have hb0 := getHeight_nonneg b hhb
          have hlrdd : lrd < d := hld lrd (by simp [keys])
          refine ⟨_, rebalance_LR d ld lrd ll a b r lrh lh h k (by omega) hk, ⟨?_, ?_, ?_⟩, ?_,
            Or.inr ⟨he, ?_, _, _, _, _, rfl, hlrdd⟩⟩
          · exact isBST_of_keys_eq _ _ (by simp [keys]) hbst
          · exact ⟨rfl, ⟨rfl, hhll, hha⟩, ⟨rfl, hhb, hhr⟩⟩
          · exact ⟨abs_le.mpr ⟨by simp only [getHeight_node]; omega,
              by simp only [getHeight_node]; omega⟩,
              ⟨abs_le.mpr ⟨by omega, by omega⟩, hbll, hba⟩,
              ⟨abs_le.mpr ⟨by omega, by omega⟩, hbb, hbar⟩⟩
          · simp [keys]
          · simp only [getHeight_node]; omega

end Ordered

section Ordered
variable [LinearOrder α]

/-- Rebalancing after an insertion into the right subtree. -/
theorem rebalance_right_spec (d : α) (l r1 : NodePtr α) (h : Int) (k : α)
    (hl : IsAVL l) (hr : IsAVL r1) (hld : ∀ x ∈ keys l, x < d) (hrd : ∀ x ∈ keys r1, d < x)
    (hlo : getHeight l ≤ getHeight r1 + 1) (hhi : getHeight r1 ≤ getHeight l + 2)
    (hg : getHeight r1 = getHeight l + 2 → Grew r1 k) :
    ∃ t', rebalance (node d l r1 h) k = some t' ∧ IsAVL t' ∧
      keys t' = keys l ++ d :: keys r1 ∧
      ((getHeight r1 ≤ getHeight l + 1 ∧
          t' = node d l r1 (1 + max (getHeight l) (getHeight r1))) ∨
       (getHeight r1 = getHeight l + 2 ∧ getHeight t' = getHeight l + 2 ∧
          ∃ d' l' r' h', t' = node d' l' r' h' ∧ d < d')) := by
  obtain ⟨hbl, hhl, hbal⟩ := hl
  obtain ⟨hbr, hhr, hbar⟩ := hr
  have hbst : IsBST (node d l r1 h) := isBST_node d l r1 h hbl hbr hld hrd
  by_cases hc : getHeight r1 ≤ getHeight l + 1
  · refine ⟨_, rebalance_none d l r1 h k (by omega) (by omega), ⟨?_, ?_, ?_⟩, rfl,
      Or.inl ⟨hc, rfl⟩⟩
    · exact isBST_node d l r1 _ hbl hbr hld hrd
    · exact ⟨rfl, hhl, hhr⟩
    · exact ⟨abs_le.mpr ⟨by omega, by omega⟩, hbal, hbar⟩
  · have he : getHeight r1 = getHeight l + 2 := by omega
    have hgr := hg he
    have hl0 := getHeight_nonneg l hhl
    cases r1 with
    | null => exact absurd hgr (by simp [Grew])
    | node rd rl rr rh =>
      simp only [getHeight_node] at he hlo hhi
      obtain ⟨hrh, hhrl, hhrr⟩ := hhr
      obtain ⟨hrb, hbrl, hbrr⟩ := hbar
      rw [abs_le] at hrb
      have hrl0 := getHeight_nonneg rl hhrl
      have hrr0 := getHeight_nonneg rr hhrr
      have hrdd : d < rd := hrd rd (by simp [keys])
      rcases hgr with ⟨hk, hgh⟩ | ⟨hk, hgh⟩
      · -- Right Left
        cases rl with
        | null => simp only [getHeight_null] at hgh; omega
        | node rld a b rlh =>
          simp only [getHeight_node] at hgh hrh hrb hrl0
          obtain ⟨hrlh, hha, hhb⟩ := hhrl
          obtain ⟨hrlb, hba, hbb⟩ := hbrl
          rw [abs_le] at hrlb
          have ha0 := getHeight_nonneg a hha
          have hb0 := getHeight_nonneg b hhb
          have hrldd : d < rld := hrd rld (by simp [keys])
          refine ⟨_, rebalance_RL d rd rld l a b rr rlh rh h k (by omega) hk, ⟨?_, ?_, ?_⟩, ?_,
            Or.inr ⟨he, ?_, _, _, _, _, rfl, hrldd⟩⟩
          · exact isBST_of_keys_eq _ _ (by simp [keys]) hbst
          · exact ⟨rfl, ⟨rfl, hhl, hha⟩, ⟨rfl, hhb, hhrr⟩⟩
          · exact ⟨abs_le.mpr ⟨by simp only [getHeight_node]; omega,
              by simp only [getHeight_node]; omega⟩,
              ⟨abs_le.mpr ⟨by omega, by omega⟩, hbal, hba⟩,
              ⟨abs_le.mpr ⟨by omega, by omega⟩, hbb, hbrr⟩⟩
          · simp [keys]
          · simp only [getHeight_node]; omega
      · -- Right Right
        refine ⟨_, rebalance_RR d rd l rl rr rh h k (by omega) hk, ⟨?_, ?_, ?_⟩, ?_,
          Or.inr ⟨he, ?_, _, _, _, _, rfl, hrdd⟩⟩
        · exact isBST_of_keys_eq _ _ (by simp [keys]) hbst
        · exact ⟨rfl, ⟨rfl, hhl, hhrl⟩, hhrr⟩
        · exact ⟨abs_le.mpr ⟨by simp only [getHeight_node]; omega,
            by simp only [getHeight_node]; omega⟩,
            ⟨abs_le.mpr ⟨by omega, by omega⟩, hbal, hbrl⟩, hbrr⟩
        · simp [keys]
        · simp only [getHeight_node]; omega

theorem insert_left_step (d : α) (l r : NodePtr α) (h : Int) (k : α)
    (ht : IsAVL (node d l r h)) (hkd : k < d) (l1 : NodePtr α)
    (hins : insert l k = some l1) (hs : InsertSpec l k l1) :
    ∃ t', insert (node d l r h) k = some t' ∧ InsertSpec (node d l r h) k t' := by
  obtain ⟨⟨hbd_l, hbd_r, hbl, hbr⟩, ⟨hh, hhl, hhr⟩, ⟨hb, hbal, hbar⟩⟩ := ht
  rw [abs_le] at hb
  have havr : IsAVL r := ⟨hbr, hhr, hbar⟩
  have hl0 := getHeight_nonneg l hhl
  have hr0 := getHeight_nonneg r hhr
  have hsh := hs.height
  have hld1 : ∀ x ∈ keys l1, x < d := by
    intro x hx
    rcases (hs.mem_keys x).mp hx with rfl | hx
    · exact hkd
    · exact hbd_l x hx
  have hgrow : getHeight l1 = getHeight r + 2 → Grew l1 k := by
    intro he
    rcases hsh with h1 | ⟨h1, h2 | h2⟩
    · omega
    · subst h2; simp only [getHeight_null] at h1; omega
    · exact h2
  have hlo : getHeight r ≤ getHeight l1 + 1 := by
    rcases hsh with h1 | ⟨h1, _⟩ <;> omega
  have hhi : getHeight l1 ≤ getHeight r + 2 := by
    rcases hsh with h1 | ⟨h1, _⟩ <;> omega
  obtain ⟨t', hreb, havl', hkeys, hcase⟩ :=
    rebalance_left_spec d l1 r h k hs.avl havr hld1 hbd_r hlo hhi hgrow
  have hkr : k ∉ keys r := fun hx => absurd (hbd_r k hx) (not_lt.mpr hkd.le)
  have hmem : k ∈ keys (node d l r h) ↔ k ∈ keys l := by
    simp [keys, hkr, hkd.ne]
  have hrun : insert (node d l r h) k = some t' := by
    simp only [insert, if_pos hkd, hins, Option.some_bind, hreb]
  refine ⟨t', hrun, ⟨havl', ?_, ?_, ?_, ?_, ?_⟩⟩
  · intro x
    simp only [hkeys, keys, List.mem_append, List.mem_cons, hs.mem_keys, or_assoc]
  · rw [← length_keys, hkeys, List.length_append, List.length_cons, length_keys,
      length_keys, hs.size_eq]
    simp only [hmem, size]
    split <;> omega
  · rcases hcase with ⟨hc, rfl⟩ | ⟨hc, hgt, _⟩
    · simp only [getHeight_node]
      rcases hsh with h1 | ⟨h1, _⟩
      · left; rw [h1]; exact hh.symm
      · by_cases hle : getHeight l1 ≤ getHeight r
        · left; omega
        · right
          exact ⟨by omega, Or.inr (Or.inl ⟨hkd, by omega⟩)⟩
    · left; simp only [getHeight_node]; omega
  · intro d0 l0 r0 h0 d' l' r' h' e1 e2 hne
    cases e1
    rcases hcase with ⟨hc, e3⟩ | ⟨hc, hgt, _⟩
    · rw [e2] at e3; cases e3; exact absurd rfl hne
    · rw [e2] at hgt; simp only [getHeight_node] at hgt; omega
  · intro hk
    have hkl := hmem.mp hk
    have hl1 := hs.same hkl
    subst hl1
    rcases hcase with ⟨hc, e3⟩ | ⟨hc, hgt, _⟩
    · rw [e3, ← hh]
    · omega

theorem insert_right_step (d : α) (l r : NodePtr α) (h : Int) (k : α)
    (ht : IsAVL (node d l r h)) (hkd : d < k) (r1 : NodePtr α)
    (hins : insert r k = some r1) (hs : InsertSpec r k r1) :
    ∃ t', insert (node d l r h) k = some t' ∧ InsertSpec (node d l r h) k t' := by
  obtain ⟨⟨hbd_l, hbd_r, hbl, hbr⟩, ⟨hh, hhl, hhr⟩, ⟨hb, hbal, hbar⟩⟩ := ht
  rw [abs_le] at hb
  have havl : IsAVL l := ⟨hbl, hhl, hbal⟩
  have hl0 := getHeight_nonneg l hhl
  have hr0 := getHeight_nonneg r hhr
  have hsh := hs.height
  have hrd1 : ∀ x ∈ keys r1, d < x := by
    intro x hx
    rcases (hs.mem_keys x).mp hx with rfl | hx
    · exact hkd
    · exact hbd_r x hx
  have hgrow : getHeight r1 = getHeight l + 2 → Grew r1 k := by
    intro he
    rcases hsh with h1 | ⟨h1, h2 | h2⟩
    · omega
    · subst h2; simp only [getHeight_null] at h1; omega
    · exact h2
  have hlo : getHeight l ≤ getHeight r1 + 1 := by
    rcases hsh with h1 | ⟨h1, _⟩ <;> omega
  have hhi : getHeight r1 ≤ getHeight l + 2 := by
    rcases hsh with h1 | ⟨h1, _⟩ <;> omega
  obtain ⟨t', hreb, havl', hkeys, hcase⟩ :=
    rebalance_right_spec d l r1 h k havl hs.avl hbd_l hrd1 hlo hhi hgrow
  have hkl : k ∉ keys l := fun hx => absurd (hbd_l k hx) (not_lt.mpr hkd.le)
  have hmem : k ∈ keys (node d l r h) ↔ k ∈ keys r := by
    simp [keys, hkl, hkd.ne']
  have hnlt : ¬ k < d := not_lt.mpr hkd.le
  have hgt : k > d := hkd
  have hrun : insert (node d l r h) k = some t' := by
    simp only [insert, if_neg hnlt, if_pos hgt, hins, Option.some_bind, hreb]
  refine ⟨t', hrun, ⟨havl', ?_, ?_, ?_, ?_, ?_⟩⟩
  · intro x
    simp only [hkeys, keys, List.mem_append, List.mem_cons, hs.mem_keys]
    constructor
    · rintro (h1 | h1 | h1 | h1) <;> simp [h1]
    · rintro (h1 | h1 | h1 | h1) <;> simp [h1]
  · rw [← length_keys, hkeys, List.length_append, List.length_cons, length_keys,
      length_keys, hs.size_eq]
    simp only [hmem, size]
    split <;> omega
  · rcases hcase with ⟨hc, rfl⟩ | ⟨hc, hgt, _⟩
    · simp only [getHeight_node]
      rcases hsh with h1 | ⟨h1, _⟩
      · left; rw [h1]; exact hh.symm
      · by_cases hle : getHeight r1 ≤ getHeight l
        · left; omega
        · right
          exact ⟨by omega, Or.inr (Or.inr ⟨hkd, by omega⟩)⟩
    · left; simp only [getHeight_node]; omega
  · intro d0 l0 r0 h0 d' l' r' h' e1 e2 hne
    cases e1
    rcases hcase with ⟨hc, e3⟩ | ⟨hc, hgt, _⟩
    · rw [e2] at e3; cases e3; exact absurd rfl hne
    · rw [e2] at hgt; simp only [getHeight_node] at hgt; omega
  · intro hk
    have hkr := hmem.mp hk
    have hr1 := hs.same hkr
    subst hr1
    rcases hcase with ⟨hc, e3⟩ | ⟨hc, hgt, _⟩
    · rw [e3, ← hh]
    · omega

theorem insert_spec (t : NodePtr α) (k : α) (ht : IsAVL t) :
    ∃ t', insert t k = some t' ∧ InsertSpec t k t' := by
  induction t with
  | null =>
    refine ⟨node k null null 1, rfl, ⟨⟨?_, ?_, ?_⟩, ?_, ?_, ?_, ?_, ?_⟩⟩
    · exact ⟨by simp [keys], by simp [keys], trivial, trivial⟩
    · exact ⟨by simp, trivial, trivial⟩
    · exact ⟨by simp, trivial, trivial⟩
    · simp [keys]
    · simp [keys, size]
    · exact Or.inr ⟨by simp, Or.inl rfl⟩
    · intro d l r h d' l' r' h' h1; cases h1
    · simp [keys]
  | node d l r h ihl ihr =>
    have havl : IsAVL l := ⟨ht.1.2.2.1, ht.2.1.2.1, ht.2.2.2.1⟩
    have havr : IsAVL r := ⟨ht.1.2.2.2, ht.2.1.2.2, ht.2.2.2.2⟩
    rcases lt_trichotomy k d with hkd | hkd | hkd
    · obtain ⟨l1, hins, hs⟩ := ihl havl
      exact insert_left_step d l r h k ht hkd l1 hins hs
    · subst hkd
      refine ⟨node k l r h, by simp [insert], ⟨ht, ?_, ?_, Or.inl rfl, ?_, fun _ => rfl⟩⟩
      · intro x; simp only [keys, List.mem_append, List.mem_cons]; tauto
      · simp [keys]
      · intro d0 l0 r0 h0 d' l' r' h' e1 e2 hne
        cases e1; cases e2; rfl
    · obtain ⟨r1, hins, hs⟩ := ihr havr
      exact insert_right_step d l r h k ht hkd r1 hins hs

end Ordered

/-! ### Real-number estimates for the height bound -/

theorem two_rpow_div_pow (p q : ℕ) (hq : 0 < q) :
    ((2 : ℝ) ^ ((p : ℝ) / (q : ℝ))) ^ q = (2 : ℝ) ^ p := by
  rw [← Real.rpow_natCast, ← Real.rpow_mul (by norm_num),
    div_mul_cancel₀ _ (by exact_mod_cast hq.ne'), Real.rpow_natCast]

theorem two_rpow_div_le (p q : ℕ) (x : ℝ) (hq : 0 < q) (hx : 0 ≤ x) (h : (2 : ℝ) ^ p ≤ x ^ q) :
    (2 : ℝ) ^ ((p : ℝ) / (q : ℝ)) ≤ x := by
  apply le_of_pow_le_pow_left₀ hq.ne' hx
  rw [two_rpow_div_pow p q hq]
  exact h

theorem lt_two_rpow_div (p q : ℕ) (x : ℝ) (hq : 0 < q) (h : x ^ q < (2 : ℝ) ^ p) :
    x < (2 : ℝ) ^ ((p : ℝ) / (q : ℝ)) := by
  apply lt_of_pow_lt_pow_left₀ q (Real.rpow_nonneg (by norm_num) _)
  rw [two_rpow_div_pow p q hq]
  exact h

/-- The growth factor `2 ^ (10000 / 14405)` is below the golden ratio. -/
theorem growth_sq_le :
    ((2 : ℝ) ^ ((10000 : ℝ) / 14405)) ^ 2 ≤ (2 : ℝ) ^ ((10000 : ℝ) / 14405) + 1 := by
  have h1 : (2 : ℝ) ^ ((10000 : ℝ) / 14405) ≤ 1618 / 1000 := by
    have := two_rpow_div_le 2000 2881 (1618 / 1000) (by norm_num) (by norm_num) (by norm_num)
    have e : ((2000 : ℕ) : ℝ) / ((2881 : ℕ) : ℝ) = (10000 : ℝ) / 14405 := by norm_num
    rwa [e] at this
  have h0 : (0 : ℝ) < (2 : ℝ) ^ ((10000 : ℝ) / 14405) := Real.rpow_pos_of_pos (by norm_num) _
  nlinarith

theorem expo_step (h : ℕ) :
    (2 : ℝ) ^ (((10000 : ℝ) * ((h + 1 : ℕ) : ℝ) + 3277) / 14405) =
      (2 : ℝ) ^ (((10000 : ℝ) * (h : ℝ) + 3277) / 14405) * (2 : ℝ) ^ ((10000 : ℝ) / 14405) := by
  rw [← Real.rpow_add (by norm_num)]
  congr 1
  push_cast
  ring

theorem fib_lower (h : ℕ) :
    (2 : ℝ) ^ (((10000 : ℝ) * ((h + 7 : ℕ) : ℝ) + 3277) / 14405) ≤ (Nat.fib (h + 9) : ℝ) ∧
    (2 : ℝ) ^ (((10000 : ℝ) * ((h + 8 : ℕ) : ℝ) + 3277) / 14405) ≤ (Nat.fib (h + 10) : ℝ) := by
  induction h with
  | zero =>
    constructor
    · have := two_rpow_div_le 73277 14405 34 (by norm_num) (by norm_num) (by norm_num)
      have e : ((73277 : ℕ) : ℝ) / ((14405 : ℕ) : ℝ) =
          ((10000 : ℝ) * ((0 + 7 : ℕ) : ℝ) + 3277) / 14405 := by norm_num
      have f : (Nat.fib (0 + 9) : ℝ) = 34 := by norm_num [Nat.fib_add_two]
      rw [f, ← e]; exact this
    · have := two_rpow_div_le 83277 14405 55 (by norm_num) (by norm_num) (by norm_num)
      have e : ((83277 : ℕ) : ℝ) / ((14405 : ℕ) : ℝ) =
          ((10000 : ℝ) * ((0 + 8 : ℕ) : ℝ) + 3277) / 14405 := by norm_num
      have f : (Nat.fib (0 + 10) : ℝ) = 55 := by norm_num [Nat.fib_add_two]
      rw [f, ← e]; exact this
  | succ h ih =>
    obtain ⟨h1, h2⟩ := ih
    refine ⟨h2, ?_⟩
    have e1 := expo_step (h + 7)
    have e2 := expo_step (h + 8)
    have hfib : (Nat.fib (h + 1 + 10) : ℝ) = Nat.fib (h + 9) + Nat.fib (h + 10) := by
      rw [show h + 1 + 10 = (h + 9) + 2 by omega, Nat.fib_add_two]
      push_cast
      rfl
    rw [show h + 7 + 1 = h + 8 by omega] at e1
    rw [show h + 1 + 8 = h + 8 + 1 by omega, e2, e1, hfib]
    rw [e1] at h2
    have hg := growth_sq_le
    have hpos : (0 : ℝ) < (2 : ℝ) ^ (((10000 : ℝ) * ((h + 7 : ℕ) : ℝ) + 3277) / 14405) :=
      Real.rpow_pos_of_pos (by norm_num) _
    generalize (2 : ℝ) ^ (((10000 : ℝ) * ((h + 7 : ℕ) : ℝ) + 3277) / 14405) = G at h1 h2 hpos ⊢
    generalize (2 : ℝ) ^ ((10000 : ℝ) / 14405) = b at h2 hg ⊢
    have hmul : G * (b ^ 2) ≤ G * (b + 1) := mul_le_mul_of_nonneg_left hg hpos.le
    nlinarith

theorem fib_lower_all (h : ℕ) :
    (2 : ℝ) ^ (((10000 : ℝ) * (h : ℝ) + 3277) / 14405) ≤ (Nat.fib (h + 2) : ℝ) + 1 := by
  rcases Nat.lt_or_ge h 7 with hlt | hge
  · have key : ∀ (p N : ℕ), (2 : ℝ) ^ p ≤ (N : ℝ) ^ 14405 →
        (2 : ℝ) ^ ((p : ℝ) / 14405) ≤ (N : ℝ) := by
      intro p N hp
      have := two_rpow_div_le p 14405 N (by norm_num) (Nat.cast_nonneg N) hp
      simpa using this
    interval_cases h
    · have := key 3277 2 (by norm_num)
      norm_num [Nat.fib_add_two] at this ⊢; exact this
    · have := key 13277 3 (by norm_num)
      norm_num [Nat.fib_add_two] at this ⊢; exact this
    · have := key 23277 4 (by norm_num)
      norm_num [Nat.fib_add_two] at this ⊢; exact this
    · have := key 33277 6 (by norm_num)
      norm_num [Nat.fib_add_two] at this ⊢; exact this
    · have := key 43277 9 (by norm_num)
      norm_num [Nat.fib_add_two] at this ⊢; exact this
    · have := key 53277 14 (by norm_num)
      norm_num [Nat.fib_add_two] at this ⊢; exact this
    · have := key 63277 22 (by norm_num)
      norm_num [Nat.fib_add_two] at this ⊢; exact this
  · obtain ⟨m, rfl⟩ := Nat.exists_eq_add_of_le hge
    have := (fib_lower m).1
    rw [show 7 + m = m + 7 by omega, show m + 7 + 2 = m + 9 by omega]
    linarith

theorem avl_real_bound (h n : ℕ) (hf : Nat.fib (h + 2) ≤ n + 1) :
    (h : ℝ) ≤ 1.4405 * Real.logb 2 ((n : ℝ) + 2) - 0.3277 := by
  have hG := fib_lower_all h
  have hle : ((10000 : ℝ) * (h : ℝ) + 3277) / 14405 ≤ Real.logb 2 ((n : ℝ) + 2) := by
    rw [Real.le_logb_iff_rpow_le (by norm_num) (by positivity)]
    have : (Nat.fib (h + 2) : ℝ) + 1 ≤ (n : ℝ) + 2 := by
      have : (Nat.fib (h + 2) : ℝ) ≤ ((n + 1 : ℕ) : ℝ) := by exact_mod_cast hf
      push_cast at this
      linarith
    linarith
  norm_num at hle ⊢
  linarith

theorem fib_lower_small (h n : ℕ) (hf : Nat.fib (h + 2) ≤ n + 1) (hn : n ≤ 608) :
    (h : ℝ) ≤ 1.44 * Real.logb 2 ((n : ℝ) + 2) - 0.328 := by
  have h12 : h < 13 := by
    by_contra hc
    have h1 : Nat.fib 15 ≤ Nat.fib (h + 2) := Nat.fib_mono (by omega)
    have h2 : Nat.fib 15 = 610 := by norm_num [Nat.fib_add_two]
    omega
  have key : ∀ (p N : ℕ), (2 : ℝ) ^ p ≤ (N : ℝ) ^ 1440 → N ≤ n + 2 →
      (p : ℝ) / 1440 ≤ Real.logb 2 ((n : ℝ) + 2) := by
    intro p N hp hN
    rw [Real.le_logb_iff_rpow_le (by norm_num) (by positivity)]
    have h1 := two_rpow_div_le p 1440 N (by norm_num) (Nat.cast_nonneg N) hp
    have h2 : (N : ℝ) ≤ (n : ℝ) + 2 := by exact_mod_cast hN
    have h3 : ((1440 : ℕ) : ℝ) = 1440 := by norm_num
    rw [h3] at h1
    linarith
  interval_cases h
  · have := key 328 2 (by norm_num) (by omega)
    norm_num at this ⊢; linarith
  · have := key 1328 3 (by norm_num) (by norm_num [Nat.fib_add_two] at hf; omega)
    norm_num at this ⊢; linarith
  · have := key 2328 4 (by norm_num) (by norm_num [Nat.fib_add_two] at hf; omega)
    norm_num at this ⊢; linarith
  · have := key 3328 6 (by norm_num) (by norm_num [Nat.fib_add_two] at hf; omega)
    norm_num at this ⊢; linarith
  · have := key 4328 9 (by norm_num) (by norm_num [Nat.fib_add_two] at hf; omega)
    norm_num at this ⊢; linarith
  · have := key 5328 14 (by norm_num) (by norm_num [Nat.fib_add_two] at hf; omega)
    norm_num at this ⊢; linarith
  · have := key 6328 22 (by norm_num) (by norm_num [Nat.fib_add_two] at hf; omega)
    norm_num at this ⊢; linarith
  · have := key 7328 35 (by norm_num) (by norm_num [Nat.fib_add_two] at hf; omega)
    norm_num at this ⊢; linarith
  · have := key 8328 56 (by norm_num) (by norm_num [Nat.fib_add_two] at hf; omega)
    norm_num at this ⊢; linarith
  · have := key 9328 90 (by norm_num) (by norm_num [Nat.fib_add_two] at hf; omega)
    norm_num at this ⊢; linarith
  · have := key 10328 145 (by norm_num) (by norm_num [Nat.fib_add_two] at hf; omega)
    norm_num at this ⊢; linarith
  · have := key 11328 234 (by norm_num) (by norm_num [Nat.fib_add_two] at hf; omega)
    norm_num at this ⊢; linarith
  · have := key 12328 378 (by norm_num) (by norm_num [Nat.fib_add_two] at hf; omega)
    norm_num at this ⊢; linarith

theorem logb_611_lt : Real.logb 2 611 < 833 / 90 := by
  rw [Real.logb_lt_iff_lt_rpow (by norm_num) (by norm_num)]
  have := lt_two_rpow_div 833 90 611 (by norm_num) (by norm_num)
  exact_mod_cast this

theorem original_bound_fails : ¬ ((13 : ℝ) ≤ 1.44 * Real.logb 2 ((609 : ℝ) + 2) - 0.328) := by
  have h := logb_611_lt
  norm_num at h ⊢
  linarith

theorem heightsExact_of_heightInv (t : NodePtr α) (h : HeightInv t) : HeightsExact t := by
  induction t with
  | null => trivial
  | node d l r ht ihl ihr =>
    refine ⟨?_, ihl h.2.1, ihr h.2.2⟩
    have := getHeight_eq_trueHeight (node d l r ht) h
    simpa using this

section Ordered
variable [LinearOrder α]

theorem isAVL_null : IsAVL (null : NodePtr α) := ⟨trivial, trivial, trivial⟩

theorem insertAll_spec (L : List α) (root : NodePtr α) (h : IsAVL root) :
    ∃ t, insertAll root L = some t ∧ IsAVL t ∧ ∀ x, x ∈ keys t ↔ x ∈ keys root ∨ x ∈ L := by
  induction L generalizing root with
  | nil => exact ⟨root, rfl, h, by simp⟩
  | cons v vs ih =>
    obtain ⟨t1, h1, hs⟩ := insert_spec root v h
    obtain ⟨t, h2, havl, hmem⟩ := ih t1 hs.avl
    refine ⟨t, by simp [insertAll, h1, h2], havl, ?_⟩
    intro x
    rw [hmem, hs.mem_keys, List.mem_cons]
    constructor
    · rintro ((h3 | h3) | h3) <;> simp [h3]
    · rintro (h3 | h3 | h3) <;> simp [h3]

theorem build_spec (L : List α) :
    ∃ t, build L = some t ∧ IsAVL t ∧ ∀ x, x ∈ keys t ↔ x ∈ L := by
  obtain ⟨t, h1, h2, h3⟩ := insertAll_spec L null isAVL_null
  exact ⟨t, h1, h2, by simpa [keys] using h3⟩

theorem keys_nodup (t : NodePtr α) (h : IsBST t) : (keys t).Nodup :=
  ((isBST_iff_pairwise t).mp h).imp (fun hab => ne_of_lt hab)

theorem size_build (L : List α) (t : NodePtr α) (hb : IsBST t)
    (hm : ∀ x, x ∈ keys t ↔ x ∈ L) : size t = L.dedup.length := by
  rw [← length_keys]
  apply List.Perm.length_eq
  rw [List.perm_ext_iff_of_nodup (keys_nodup t hb) (List.nodup_dedup L)]
  intro a
  rw [hm, List.mem_dedup]

/-- Claim C1 (balance invariant preserved by insert). For every tree `t` that satisfies
the BST order, height and balance invariants and every key `k`, the recursive `insert`
returns a tree `t'` in which every node satisfies `|height(left) - height(right)| ≤ 1`,
the height of an absent subtree being 0: both with the stored heights (`Balanced`) and
with the true heights (`TrueBalanced`). Moreover the empty tree and every tree built from
it by a finite sequence of insert calls satisfies the three invariants. -/
theorem insert_preserves_balance :
    (∀ (t : NodePtr α) (k : α), IsAVL t →
      ∃ t', insert t k = some t' ∧ Balanced t' ∧ TrueBalanced t') ∧
    (∀ L : List α, ∃ t, build L = some t ∧ IsAVL t) := by
  refine ⟨fun t k ht => ?_, fun L => ?_⟩
  · obtain ⟨t', h1, hs⟩ := insert_spec t k ht
    exact ⟨t', h1, hs.avl.2.2, trueBalanced_of_balanced t' hs.avl.2.1 hs.avl.2.2⟩
  · obtain ⟨t, h1, h2, _⟩ := build_spec L
    exact ⟨t, h1, h2⟩

theorem insert_preserves_balance_witness :
    IsAVL (node (20 : Int) (node 10 null null 1) null 2) ∧
      ∃ t', insert (node (20 : Int) (node 10 null null 1) null 2) 5 = some t' ∧
        Balanced t' ∧ TrueBalanced t' :=
  ⟨by decide, insert_preserves_balance.1 _ 5 (by decide)⟩

/-- Claim C2 (BST order invariant preserved by insert). For every tree `t` that satisfies
the BST order, height and balance invariants and every key `k`, in the tree returned by
`insert t k` every node's left subtree holds only keys strictly less than the node's key
and its right subtree only keys strictly greater; hence no two nodes hold equal keys. -/
theorem insert_preserves_bst (t : NodePtr α) (k : α) (ht : IsAVL t) :
    ∃ t', insert t k = some t' ∧ IsBST t' ∧ (keys t').Nodup := by
  obtain ⟨t', h1, hs⟩ := insert_spec t k ht
  exact ⟨t', h1, hs.avl.1, keys_nodup t' hs.avl.1⟩

theorem insert_preserves_bst_witness :
    IsAVL (node (20 : Int) (node 10 null null 1) null 2) ∧
      ∃ t', insert (node (20 : Int) (node 10 null null 1) null 2) 15 = some t' ∧
        IsBST t' ∧ (keys t').Nodup :=
  ⟨by decide, insert_preserves_bst _ 15 (by decide)⟩

/-- Claim C3 (height invariant preserved by insert). For every tree `t` that satisfies
the BST order, height and balance invariants and every key `k`, every node of the tree
returned by `insert t k` has a stored height equal to
`1 + max(height(left), height(right))` (absent subtree 0), so that the stored height of
every node equals the true height of the subtree rooted at it. -/
theorem insert_preserves_height (t : NodePtr α) (k : α) (ht : IsAVL t) :
    ∃ t', insert t k = some t' ∧ HeightInv t' ∧ HeightsExact t' := by
  obtain ⟨t', h1, hs⟩ := insert_spec t k ht
  exact ⟨t', h1, hs.avl.2.1, heightsExact_of_heightInv t' hs.avl.2.1⟩

theorem insert_preserves_height_witness :
    IsAVL (node (20 : Int) null (node 30 null null 1) 2) ∧
      ∃ t', insert (node (20 : Int) null (node 30 null null 1) 2) 25 = some t' ∧
        HeightInv t' ∧ HeightsExact t' :=
  ⟨by decide, insert_preserves_height _ 25 (by decide)⟩

/-- Claim C4 (sorted output). For every finite list of keys inserted one by one into an
empty tree, the insertions succeed and `getInorder` returns a strictly ascending list:
each element is strictly less than the next (`Chain'`), indeed less than every later
element (`Pairwise`), so no element occurs twice. -/
theorem getInorder_strictly_ascending (L : List α) :
    ∃ t, build L = some t ∧ (getInorder t).Chain' (· < ·) ∧
      (getInorder t).Pairwise (· < ·) ∧ (getInorder t).Nodup := by
  obtain ⟨t, h1, h2, _⟩ := build_spec L
  have hp := (isBST_iff_pairwise t).mp h2.1
  refine ⟨t, h1, ?_⟩
  rw [getInorder_eq_keys]
  exact ⟨List.Pairwise.chain' hp, hp, keys_nodup t h2.1⟩

/-- Claim C5 (content of the output). For every finite list `L` of keys inserted one by
one into an empty tree and every key `k`, `k` occurs in the result of `getInorder` if and
only if `k` occurs in `L`. -/
theorem getInorder_mem_iff (L : List α) :
    ∃ t, build L = some t ∧ ∀ k, k ∈ getInorder t ↔ k ∈ L := by
  obtain ⟨t, h1, _, h3⟩ := build_spec L
  exact ⟨t, h1, by simpa [getInorder_eq_keys] using h3⟩

/-- Claim C6 (duplicate insertion is a no-op). For every tree `t` that satisfies the BST
order, height and balance invariants and every key `k` already stored in `t`,
`insert t k` returns `t` itself: same shape, same keys, same stored heights. -/
theorem insert_duplicate_noop (t : NodePtr α) (k : α) (ht : IsAVL t) (hk : k ∈ keys t) :
    insert t k = some t := by
  obtain ⟨t', h1, hs⟩ := insert_spec t k ht
  rw [h1, hs.same hk]

theorem insert_duplicate_noop_witness :
    IsAVL (node (20 : Int) (node 10 null null 1) (node 30 null null 1) 2) ∧
      (10 : Int) ∈ keys (node (20 : Int) (node 10 null null 1) (node 30 null null 1) 2) ∧
      insert (node (20 : Int) (node 10 null null 1) (node 30 null null 1) 2) 10 =
        some (node (20 : Int) (node 10 null null 1) (node 30 null null 1) 2) :=
  ⟨by decide, by decide, insert_duplicate_noop _ 10 (by decide) (by decide)⟩

/-- Claim C7 (idempotence of insert). For every tree `t` built from the empty tree by
inserting the keys of a list `L` and every key `k`, inserting `k` into `insert t k` gives
`insert t k` again (same shape, keys and stored heights). In particular inserting `k`
twice into the empty tree gives the one-node tree holding `k` with height 1, whose
`getInorder` is `[k]`. -/
theorem insert_idempotent (L : List α) (k : α) :
    (∃ t t', build L = some t ∧ insert t k = some t' ∧ insert t' k = some t') ∧
    insert (null : NodePtr α) k = some (node k null null 1) ∧
    insert (node k null null 1) k = some (node k null null 1) ∧
    build [k, k] = some (node k null null 1) ∧
    getInorder (node k null null 1) = [k] := by
  refine ⟨?_, rfl, by simp [insert], by simp [build, insertAll, insert], rfl⟩
  obtain ⟨t, h1, h2, _⟩ := build_spec L
  obtain ⟨t', h3, hs⟩ := insert_spec t k h2
  obtain ⟨t'', h4, hs'⟩ := insert_spec t' k hs.avl
  refine ⟨t, t', h1, h3, ?_⟩
  rw [h4, hs'.same ((hs.mem_keys k).mpr (Or.inl rfl))]

/-- Claim C9 (order independence of content). For every list `L` and every permutation
`L'` of `L`, inserting the keys of `L` one by one into an empty tree and inserting the
keys of `L'` one by one into an empty tree give equal `getInorder` results. This holds
for all lists, in particular for lists of pairwise distinct keys. -/
theorem getInorder_perm_invariant (L L' : List α) (hp : L.Perm L') :
    ∃ t t', build L = some t ∧ build L' = some t' ∧ getInorder t = getInorder t' := by
  obtain ⟨t, h1, h2, h3⟩ := build_spec L
  obtain ⟨t', h1', h2', h3'⟩ := build_spec L'
  refine ⟨t, t', h1, h1', ?_⟩
  rw [getInorder_eq_keys, getInorder_eq_keys]
  apply List.eq_of_perm_of_sorted _ ((isBST_iff_pairwise t).mp h2.1)
    ((isBST_iff_pairwise t').mp h2'.1)
  rw [List.perm_ext_iff_of_nodup (keys_nodup t h2.1) (keys_nodup t' h2'.1)]
  intro a
  rw [h3, h3', hp.mem_iff]

theorem getInorder_perm_invariant_witness :
    ([10, 20, 30] : List Int).Perm [30, 10, 20] ∧
      ∃ t t', build ([10, 20, 30] : List Int) = some t ∧ build [30, 10, 20] = some t' ∧
        getInorder t = getInorder t' :=
  ⟨by decide, getInorder_perm_invariant _ _ (by decide)⟩

/-- Claim C10 (length of the output). For every finite list `L` of keys inserted one by
one into an empty tree, the length of `getInorder`'s result, which is the number of nodes
of the tree, equals the number of distinct keys in `L`. And for every tree `t` satisfying
the BST order, height and balance invariants, `insert t k` has exactly one node more than
`t` when `k` is not stored in `t` and exactly as many nodes as `t` when it is. -/
theorem getInorder_length :
    (∀ L : List α, ∃ t, build L = some t ∧ (getInorder t).length = L.dedup.length ∧
      size t = L.dedup.length) ∧
    (∀ (t : NodePtr α) (k : α), IsAVL t → ∃ t', insert t k = some t' ∧
      (k ∉ keys t → size t' = size t + 1) ∧ (k ∈ keys t → size t' = size t)) := by
  refine ⟨fun L => ?_, fun t k ht => ?_⟩
  · obtain ⟨t, h1, h2, h3⟩ := build_spec L
    have := size_build L t h2.1 h3
    exact ⟨t, h1, by rw [getInorder_eq_keys, length_keys, this], this⟩
  · obtain ⟨t', h1, hs⟩ := insert_spec t k ht
    refine ⟨t', h1, fun hk => ?_, fun hk => ?_⟩
    · rw [hs.size_eq, if_neg hk]
    · rw [hs.size_eq, if_pos hk]

theorem getInorder_length_witness :
    IsAVL (node (20 : Int) (node 10 null null 1) null 2) ∧
      ∃ t', insert (node (20 : Int) (node 10 null null 1) null 2) 30 = some t' ∧
      ((30 : Int) ∉ keys (node (20 : Int) (node 10 null null 1) null 2) →
        size t' = size (node (20 : Int) (node 10 null null 1) null 2) + 1) ∧
      ((30 : Int) ∈ keys (node (20 : Int) (node 10 null null 1) null 2) →
        size t' = size (node (20 : Int) (node 10 null null 1) null 2)) :=
  ⟨by decide, getInorder_length.2 _ 30 (by decide)⟩

end Ordered

/-- Fibonacci lower bound on the number of nodes of a balanced tree. -/
theorem fib_le_size (t : NodePtr α) (hb : TrueBalanced t) :
    Nat.fib (trueHeight t + 2) ≤ size t + 1 := by
  induction t with
  | null => simp [trueHeight, size]
  | node d l r h ihl ihr =>
    obtain ⟨h1, h2, h3⟩ := hb
    have hl := ihl h2
    have hr := ihr h3
    rw [abs_le] at h1
    simp only [trueHeight, size]
    rcases le_total (trueHeight l) (trueHeight r) with hle | hle
    · rw [max_eq_right hle, show 1 + trueHeight r + 2 = (trueHeight r + 1) + 2 by omega,
        Nat.fib_add_two]
      have : Nat.fib (trueHeight r + 1) ≤ Nat.fib (trueHeight l + 2) := Nat.fib_mono (by omega)
      rw [show trueHeight r + 1 + 1 = trueHeight r + 2 from rfl]
      omega
    · rw [max_eq_left hle, show 1 + trueHeight l + 2 = (trueHeight l + 1) + 2 by omega,
        Nat.fib_add_two]
      have : Nat.fib (trueHeight l + 1) ≤ Nat.fib (trueHeight r + 2) := Nat.fib_mono (by omega)
      rw [show trueHeight l + 1 + 1 = trueHeight l + 2 from rfl]
      omega

section Ordered
variable [LinearOrder α]

theorem nodup_of_size_eq (L : List α) (t : NodePtr α) (hb : IsBST t)
    (hm : ∀ x, x ∈ keys t ↔ x ∈ L) (hs : size t = L.length) : L.Nodup := by
  have h1 := size_build L t hb hm
  have h2 : L.dedup = L := (List.dedup_sublist L).eq_of_length (by omega)
  rw [← h2]
  exact List.nodup_dedup L

/-- Claim C8, amended (height bound). For every list of `n` pairwise distinct keys
inserted one by one into an empty tree, the height `h` of the resulting tree (stored
height of the root, leaf = 1) satisfies `h ≤ 1.4405 * log2(n + 2) - 0.3277` over the real
numbers; with the constants `1.44` and `0.328` the inequality holds whenever `n ≤ 608`. -/
theorem height_bound (L : List α) (hnd : L.Nodup) :
    ∃ t, build L = some t ∧
      (getHeight t : ℝ) ≤ 1.4405 * Real.logb 2 ((L.length : ℝ) + 2) - 0.3277 ∧
      (L.length ≤ 608 →
        (getHeight t : ℝ) ≤ 1.44 * Real.logb 2 ((L.length : ℝ) + 2) - 0.328) := by
  obtain ⟨t, h1, h2, h3⟩ := build_spec L
  have hsz : size t = L.length := by rw [size_build L t h2.1 h3, List.Nodup.dedup hnd]
  have hfib := fib_le_size t (trueBalanced_of_balanced t h2.2.1 h2.2.2)
  rw [hsz] at hfib
  have hgh : (getHeight t : ℝ) = (trueHeight t : ℝ) := by
    rw [getHeight_eq_trueHeight t h2.2.1]; norm_cast
  refine ⟨t, h1, ?_, fun h608 => ?_⟩
  · rw [hgh]; exact avl_real_bound _ _ hfib
  · rw [hgh]; exact fib_lower_small _ _ hfib h608

theorem height_bound_witness :
    ([10, 20, 30] : List Int).Nodup ∧
    ∃ t, build ([10, 20, 30] : List Int) = some t ∧
      (getHeight t : ℝ) ≤
        1.4405 * Real.logb 2 ((([10, 20, 30] : List Int).length : ℝ) + 2) - 0.3277 ∧
      (([10, 20, 30] : List Int).length ≤ 608 →
        (getHeight t : ℝ) ≤
          1.44 * Real.logb 2 ((([10, 20, 30] : List Int).length : ℝ) + 2) - 0.328) :=
  ⟨by decide, height_bound _ (by decide)⟩

/-- Evaluation of the insertions of `fibKeys`: the resulting tree has stored height 13
and 609 nodes, and the list has 609 entries. -/
theorem build_fibKeys :
    (build fibKeys).map (fun t => (getHeight t, size t, fibKeys.length)) =
      some (13, 609, 609) := by
  set_option maxRecDepth 100000 in decide!

/-- Claim C8 fails as stated. The 609 pairwise distinct keys of `fibKeys`, inserted one
by one into an empty tree, give a tree of height 13, whereas
`1.44 * log2(609 + 2) - 0.328 < 13`. -/
theorem height_bound_counterexample :
    fibKeys.Nodup ∧ 1 ≤ fibKeys.length ∧ fibKeys.length = 609 ∧
    ∃ t, build fibKeys = some t ∧ getHeight t = 13 ∧
      ¬ ((getHeight t : ℝ) ≤ 1.44 * Real.logb 2 ((fibKeys.length : ℝ) + 2) - 0.328) := by
  obtain ⟨t, h1, h2, h3⟩ := build_spec fibKeys
  have h := build_fibKeys
  rw [h1] at h
  simp only [Option.map_some', Option.some.injEq, Prod.mk.injEq] at h
  obtain ⟨e1, e2, e3⟩ := h
  refine ⟨nodup_of_size_eq fibKeys t h2.1 h3 (by omega), by omega, e3, t, h1, e1, ?_⟩
  rw [e1, e3]
  exact_mod_cast original_bound_fails

end Ordered

/-! ### Scenarios, rotations and the rebalancing step -/

section Ordered
variable [LinearOrder α]

theorem isAVL_left (d : α) (l r : NodePtr α) (h : Int) (ht : IsAVL (node d l r h)) :
    IsAVL l := ⟨ht.1.2.2.1, ht.2.1.2.1, ht.2.2.2.1⟩

theorem isAVL_right (d : α) (l r : NodePtr α) (h : Int) (ht : IsAVL (node d l r h)) :
    IsAVL r := ⟨ht.1.2.2.2, ht.2.1.2.2, ht.2.2.2.2⟩

theorem isAVL_of_mem_searchPath (t : NodePtr α) (k : α) (ht : IsAVL t) :
    ∀ n ∈ searchPath t k, IsAVL n := by
  induction t with
  | null => intro n hn; simp [searchPath] at hn
  | node d l r h ihl ihr =>
    intro n hn
    simp only [searchPath, List.mem_cons] at hn
    rcases hn with rfl | hn
    · exact ht
    · split_ifs at hn with h1 h2
      · exact ihl (isAVL_left d l r h ht) n hn
      · exact ihr (isAVL_right d l r h ht) n hn
      · simp at hn

/-- Claim C12 (driver scenario). Inserting 10, 20, 30, 40, 50, 25 in that order into an
empty tree of integers succeeds and yields a tree whose `getInorder` is
`[10, 20, 25, 30, 40, 50]` and whose stored root height is 3. -/
theorem driver_scenario :
    ∃ t, build ([10, 20, 30, 40, 50, 25] : List Int) = some t ∧
      getInorder t = [10, 20, 25, 30, 40, 50] ∧ getHeight t = 3 :=
  ⟨node 30 (node 20 (node 10 null null 1) (node 25 null null 1) 2)
      (node 40 null (node 50 null null 1) 2) 3, by decide, by decide, by decide⟩

/-- Claim C11 (three-key rebalancing). For all keys `a < b < c`, inserting them into an
empty tree in each of the orders `(a, b, c)` (Right-Right), `(c, b, a)` (Left-Left),
`(c, a, b)` (Left-Right) and `(a, c, b)` (Right-Left) yields the same tree: root `b` with
stored height 2, left child the leaf `a` and right child the leaf `c`, each with stored
height 1; its `getInorder` is `[a, b, c]`. -/
theorem three_key_rebalancing (a b c : α) (hab : a < b) (hbc : b < c) :
    build [a, b, c] = some (node b (node a null null 1) (node c null null 1) 2) ∧
    build [c, b, a] = some (node b (node a null null 1) (node c null null 1) 2) ∧
    build [c, a, b] = some (node b (node a null null 1) (node c null null 1) 2) ∧
    build [a, c, b] = some (node b (node a null null 1) (node c null null 1) 2) ∧
    getInorder (node b (node a null null 1) (node c null null 1) 2) = [a, b, c] := by
  have hac : a < c := lt_trans hab hbc
  have nba : ¬ b < a := not_lt.mpr hab.le
  have ncb : ¬ c < b := not_lt.mpr hbc.le
  have nca : ¬ c < a := not_lt.mpr hac.le
  refine ⟨?_, ?_, ?_, ?_, rfl⟩
  · simp [build, insertAll, insert, rebalance, updateHeight, getBalance, leftHeavyCond,
      rightHeavyCond, rightData, leftRotate, hab, hbc, hac, nba, ncb, nca]
  · simp [build, insertAll, insert, rebalance, updateHeight, getBalance, leftHeavyCond,
      rightHeavyCond, leftData, rightRotate, hab, hbc, hac, nba, ncb, nca]
  · simp [build, insertAll, insert, rebalance, updateHeight, getBalance, leftHeavyCond,
      rightHeavyCond, leftData, rightRotate, leftRotate, getLeft, setLeft,
      hab, hbc, hac, nba, ncb, nca]
  · simp [build, insertAll, insert, rebalance, updateHeight, getBalance, leftHeavyCond,
      rightHeavyCond, rightData, rightRotate, leftRotate, getRight, setRight,
      hab, hbc, hac, nba, ncb, nca]

theorem three_key_rebalancing_witness :
    (10 : Int) < 20 ∧ (20 : Int) < 30 ∧
    build ([10, 20, 30] : List Int) =
      some (node 20 (node 10 null null 1) (node 30 null null 1) 2) ∧
    build ([30, 20, 10] : List Int) =
      some (node 20 (node 10 null null 1) (node 30 null null 1) 2) ∧
    build ([30, 10, 20] : List Int) =
      some (node 20 (node 10 null null 1) (node 30 null null 1) 2) ∧
    build ([10, 30, 20] : List Int) =
      some (node 20 (node 10 null null 1) (node 30 null null 1) 2) ∧
    getInorder (node (20 : Int) (node 10 null null 1) (node 30 null null 1) 2) =
      [10, 20, 30] :=
  ⟨by decide, by decide, three_key_rebalancing 10 20 30 (by decide) (by decide)⟩

end Ordered

/-! ### The rotations in `int` arithmetic -/

/-- Wherever `updateHeight32` returns, the embedding with unbounded heights returns the
same node. -/
theorem updateHeight32_refines (n m : NodePtr α) (h : updateHeight32 n = some m) :
    updateHeight n = some m := by
  cases n with
  | null => simp [updateHeight32] at h
  | node d l r ht =>
    simp only [updateHeight32, addInt32] at h
    split_ifs at h
    · simpa [updateHeight] using h
    · simp at h

/-- Wherever `rightRotate32` returns, `rightRotate` returns the same node. -/
theorem rightRotate32_refines (y r : NodePtr α) (h : rightRotate32 y = some r) :
    rightRotate y = some r := by
  cases y with
  | null => simp [rightRotate32] at h
  | node yd yl yr yh =>
    cases yl with
    | null => simp [rightRotate32] at h
    | node xd xl T2 xh =>
      simp only [rightRotate32, Option.bind_eq_some] at h
      obtain ⟨m, h1, h2⟩ := h
      simp only [rightRotate, updateHeight32_refines _ _ h1, Option.some_bind,
        updateHeight32_refines _ _ h2]

/-- Wherever `leftRotate32` returns, `leftRotate` returns the same node. -/
theorem leftRotate32_refines (x r : NodePtr α) (h : leftRotate32 x = some r) :
    leftRotate x = some r := by
  cases x with
  | null => simp [leftRotate32] at h
  | node xd xl xr xh =>
    cases xr with
    | null => simp [leftRotate32] at h
    | node yd T2 yr yh =>
      simp only [leftRotate32, Option.bind_eq_some] at h
      obtain ⟨m, h1, h2⟩ := h
      simp only [leftRotate, updateHeight32_refines _ _ h1, Option.some_bind,
        updateHeight32_refines _ _ h2]

section Ordered
variable [LinearOrder α]

/-- Claim C13 (rotation preconditions are always met inside insert). With rotations and
child reads embedded as `Option`-valued operations that fail on a null dereference, for
every tree `t` that satisfies the BST order, height and balance invariants and every key
`k` the recursive `insert` never takes a failure branch: `insert t k` returns a tree, and
so does the recursive call at every node visited on the way down. -/
theorem insert_never_fails (t : NodePtr α) (k : α) (ht : IsAVL t) :
    (∃ t', insert t k = some t') ∧
    ∀ n ∈ searchPath t k, ∃ n', insert n k = some n' := by
  refine ⟨?_, fun n hn => ?_⟩
  · obtain ⟨t', h1, _⟩ := insert_spec t k ht
    exact ⟨t', h1⟩
  · obtain ⟨n', h1, _⟩ := insert_spec n k (isAVL_of_mem_searchPath t k ht n hn)
    exact ⟨n', h1⟩

theorem insert_never_fails_witness :
    IsAVL (node (30 : Int) (node 20 null null 1) null 2) ∧
    (∃ t', insert (node (30 : Int) (node 20 null null 1) null 2) 10 = some t') ∧
    ∀ n ∈ searchPath (node (30 : Int) (node 20 null null 1) null 2) 10,
      ∃ n', insert n 10 = some n' :=
  ⟨by decide, insert_never_fails _ 10 (by decide)⟩

/-- The failure branches are real: on a tree whose stored heights violate the height
invariant the balance test can pass although the child to be read is null. -/
theorem insert_fails_on_bad_heights :
    insert (node (10 : Int) null (node 20 null null (-5)) 1) 20 = none := by decide

/-- Claim C17 (insert changes the height by at most one and never lowers it). For every
tree `t` that satisfies the BST order, height and balance invariants and every key `k`,
the stored root height of `insert t k`, which is also its true height, is either the
height of `t` or the height of `t` plus one. -/
theorem insert_height_step (t : NodePtr α) (k : α) (ht : IsAVL t) :
    ∃ t', insert t k = some t' ∧
      (getHeight t' = getHeight t ∨ getHeight t' = getHeight t + 1) ∧
      (trueHeight t' = trueHeight t ∨ trueHeight t' = trueHeight t + 1) := by
  obtain ⟨t', h1, hs⟩ := insert_spec t k ht
  have e1 := getHeight_eq_trueHeight t ht.2.1
  have e2 := getHeight_eq_trueHeight t' hs.avl.2.1
  have hh := hs.height
  refine ⟨t', h1, ?_, ?_⟩
  · rcases hh with h | ⟨h, _⟩
    · exact Or.inl h
    · exact Or.inr h
  · rcases hh with h | ⟨h, _⟩
    · left; omega
    · right; omega

theorem insert_height_step_witness :
    IsAVL (node (30 : Int) (node 20 null null 1) null 2) ∧
    ∃ t', insert (node (30 : Int) (node 20 null null 1) null 2) 10 = some t' ∧
      (getHeight t' = getHeight (node (30 : Int) (node 20 null null 1) null 2) ∨
        getHeight t' = getHeight (node (30 : Int) (node 20 null null 1) null 2) + 1) ∧
      (trueHeight t' = trueHeight (node (30 : Int) (node 20 null null 1) null 2) ∨
        trueHeight t' = trueHeight (node (30 : Int) (node 20 null null 1) null 2) + 1) :=
  ⟨by decide, insert_height_step _ 10 (by decide)⟩

/-- Claim C19 (exact integer form of the logarithmic height bound). For every tree built
from the empty tree by inserting the keys of a list one by one, with `n` nodes and height
`h` (stored root height, equal to the true height; leaf = 1, empty = 0),
`n + 1 ≥ fib (h + 2)`, where `fib 0 = 0`, `fib 1 = 1` and `fib (k + 2) = fib (k + 1) + fib k`. -/
theorem fib_height_bound (L : List α) :
    ∃ t, build L = some t ∧ getHeight t = (trueHeight t : Int) ∧
      Nat.fib (trueHeight t + 2) ≤ size t + 1 ∧
      Nat.fib ((getHeight t).toNat + 2) ≤ size t + 1 ∧
      Nat.fib 0 = 0 ∧ Nat.fib 1 = 1 ∧ ∀ j, Nat.fib (j + 2) = Nat.fib (j + 1) + Nat.fib j := by
  obtain ⟨t, h1, h2, _⟩ := build_spec L
  have e := getHeight_eq_trueHeight t h2.2.1
  have hf := fib_le_size t (trueBalanced_of_balanced t h2.2.1 h2.2.2)
  refine ⟨t, h1, e, hf, ?_, rfl, rfl, fun j => ?_⟩
  · rw [e, Int.toNat_ofNat]; exact hf
  · rw [Nat.fib_add_two, Nat.add_comm]

end Ordered

section Ordered
variable [LinearOrder α]

theorem insert_ne_null (t : NodePtr α) (k : α) (t' : NodePtr α) (hs : InsertSpec t k t') :
    t' ≠ null := by
  intro h
  have := (hs.mem_keys k).mpr (Or.inl rfl)
  rw [h] at this
  simp [keys] at this

/-- When the recursive call leaves the height of the left subtree unchanged, the node
keeps its key and its stored height and only its left child is replaced. -/
theorem insert_left_same_height (d : α) (l r : NodePtr α) (h : Int) (k : α)
    (ht : IsAVL (node d l r h)) (hkd : k < d) (l1 : NodePtr α)
    (hins : insert l k = some l1) (hh : getHeight l1 = getHeight l) :
    insert (node d l r h) k = some (node d l1 r h) := by
  obtain ⟨_, ⟨h1, _, _⟩, ⟨hb, _, _⟩⟩ := ht
  rw [abs_le] at hb
  have hreb := rebalance_none d l1 r h k (by omega) (by omega)
  simp only [insert, if_pos hkd, hins, Option.some_bind, hreb, hh, ← h1]

/-- The mirror image of `insert_left_same_height` for the right subtree. -/
theorem insert_right_same_height (d : α) (l r : NodePtr α) (h : Int) (k : α)
    (ht : IsAVL (node d l r h)) (hkd : d < k) (r1 : NodePtr α)
    (hins : insert r k = some r1) (hh : getHeight r1 = getHeight r) :
    insert (node d l r h) k = some (node d l r1 h) := by
  obtain ⟨_, ⟨h1, _, _⟩, ⟨hb, _, _⟩⟩ := ht
  rw [abs_le] at hb
  have hreb := rebalance_none d l r1 h k (by omega) (by omega)
  have hnlt : ¬ k < d := not_lt.mpr hkd.le
  have hgt : k > d := hkd
  simp only [insert, if_neg hnlt, if_pos hgt, hins, Option.some_bind, hreb, hh, ← h1]

/-- A node one of whose proper descendants on the search path keeps its height keeps
its own key and height. -/
theorem insert_same_of_descendant (t : NodePtr α) (k : α) (ht : IsAVL t) :
    ∀ m ∈ (searchPath t k).tail, ∀ m', insert m k = some m' → getHeight m' = getHeight m →
      ∃ t', insert t k = some t' ∧ rootKey t' = rootKey t ∧ getHeight t' = getHeight t := by
  induction t with
  | null => intro m hm; simp [searchPath] at hm
  | node d l r h ihl ihr =>
    intro m hm m' hins hh
    simp only [searchPath, List.tail_cons] at hm
    split_ifs at hm with h1 h2
    · have hl : ∃ l1, insert l k = some l1 ∧ getHeight l1 = getHeight l := by
        cases l with
        | null => simp [searchPath] at hm
        | node ld ll lr lh =>
          rw [searchPath, List.mem_cons] at hm
          rcases hm with rfl | hm
          · exact ⟨m', hins, hh⟩
          · obtain ⟨l1, e1, _, e3⟩ :=
              ihl (isAVL_left d _ r h ht) m (by simpa [searchPath] using hm) m' hins hh
            exact ⟨l1, e1, e3⟩
      obtain ⟨l1, e1, e2⟩ := hl
      exact ⟨_, insert_left_same_height d l r h k ht h1 l1 e1 e2, rfl, rfl⟩
    · have hr : ∃ r1, insert r k = some r1 ∧ getHeight r1 = getHeight r := by
        cases r with
        | null => simp [searchPath] at hm
        | node rd rl rr rh =>
          rw [searchPath, List.mem_cons] at hm
          rcases hm with rfl | hm
          · exact ⟨m', hins, hh⟩
          · obtain ⟨r1, e1, _, e3⟩ :=
              ihr (isAVL_right d l _ h ht) m (by simpa [searchPath] using hm) m' hins hh
            exact ⟨r1, e1, e3⟩
      obtain ⟨r1, e1, e2⟩ := hr
      exact ⟨_, insert_right_same_height d l r h k ht h2 r1 e1 e2, rfl, rfl⟩
    · simp at hm

/-- A tree on the search path whose root key is changed by `insert` keeps its height. -/
theorem height_eq_of_rootKey_ne (t : NodePtr α) (k : α) (ht : IsAVL t) (hne : t ≠ null)
    (t' : NodePtr α) (hins : insert t k = some t') (hk : rootKey t' ≠ rootKey t) :
    getHeight t' = getHeight t := by
  obtain ⟨t'', h1, hs⟩ := insert_spec t k ht
  rw [hins] at h1
  cases h1
  cases t with
  | null => exact absurd rfl hne
  | node d l r h =>
    cases t' with
    | null => exact absurd rfl (insert_ne_null _ k _ hs)
    | node d' l' r' h' =>
      have hd : d' ≠ d := fun e => hk (by rw [e]; rfl)
      exact hs.root d l r h d' l' r' h' rfl rfl hd

theorem ne_null_of_mem_searchPath (t : NodePtr α) (k : α) :
    ∀ n ∈ searchPath t k, n ≠ null := by
  induction t with
  | null => intro n hn; simp [searchPath] at hn
  | node d l r h ihl ihr =>
    intro n hn
    simp only [searchPath, List.mem_cons] at hn
    rcases hn with rfl | hn
    · exact fun e => NodePtr.noConfusion e
    · split_ifs at hn with h1 h2
      · exact ihl n hn
      · exact ihr n hn
      · simp at hn

/-- Claim C18 (a rebalancing rotation restores the height the subtree had before the
insertion). For every non-empty tree `t` that satisfies the BST order, height and balance
invariants and every key `k`: if the root key of `insert t k` differs from the root key
of `t` (a single or double rotation was applied at the top node), then the height of
`insert t k` equals the height of `t`. Hence no ancestor of a rotated node changes height
or is rotated in the same insertion: if some node `m` strictly below the root of `t` on
the search path of `k` has its root key changed by the insertion, then `insert t k` has
the same root key and the same stored height as `t`. -/
theorem rotation_restores_height (t : NodePtr α) (k : α) (ht : IsAVL t) (hne : t ≠ null) :
    ∃ t', insert t k = some t' ∧
      (rootKey t' ≠ rootKey t → getHeight t' = getHeight t) ∧
      (∀ m ∈ (searchPath t k).tail,
        (∃ m', insert m k = some m' ∧ rootKey m' ≠ rootKey m) →
          rootKey t' = rootKey t ∧ getHeight t' = getHeight t) := by
  obtain ⟨t', h1, hs⟩ := insert_spec t k ht
  refine ⟨t', h1, height_eq_of_rootKey_ne t k ht hne t' h1, ?_⟩
  rintro m hm ⟨m', hm1, hm2⟩
  have hmp : m ∈ searchPath t k := List.mem_of_mem_tail hm
  have hh := height_eq_of_rootKey_ne m k (isAVL_of_mem_searchPath t k ht m hmp)
    (ne_null_of_mem_searchPath t k m hmp) m' hm1 hm2
  obtain ⟨t'', e1, e2, e3⟩ := insert_same_of_descendant t k ht m hm m' hm1 hh
  rw [h1] at e1
  cases e1
  exact ⟨e2, e3⟩

theorem rotation_restores_height_witness :
    IsAVL (node (40 : Int) (node 30 (node 20 null null 1) null 2) (node 50 null null 1) 3) ∧
    (node (40 : Int) (node 30 (node 20 null null 1) null 2) (node 50 null null 1) 3) ≠ null ∧
    ∃ t', insert (node (40 : Int) (node 30 (node 20 null null 1) null 2)
        (node 50 null null 1) 3) 10 = some t' ∧
      (rootKey t' ≠ rootKey (node (40 : Int) (node 30 (node 20 null null 1) null 2)
          (node 50 null null 1) 3) →
        getHeight t' = getHeight (node (40 : Int) (node 30 (node 20 null null 1) null 2)
          (node 50 null null 1) 3)) ∧
      (∀ m ∈ (searchPath (node (40 : Int) (node 30 (node 20 null null 1) null 2)
          (node 50 null null 1) 3) 10).tail,
        (∃ m', insert m 10 = some m' ∧ rootKey m' ≠ rootKey m) →
          rootKey t' = rootKey (node (40 : Int) (node 30 (node 20 null null 1) null 2)
            (node 50 null null 1) 3) ∧
          getHeight t' = getHeight (node (40 : Int) (node 30 (node 20 null null 1) null 2)
            (node 50 null null 1) 3)) :=
  ⟨by decide, by decide, rotation_restores_height _ 10 (by decide) (by decide)⟩

end Ordered

section Ordered
variable [LinearOrder α]

theorem caseSplit_none (d : α) (l r : NodePtr α) (h : Int) (k : α)
    (hb1 : getHeight l - getHeight r ≤ 1) (hb2 : -1 ≤ getHeight l - getHeight r) :
    CaseSplit (node d l r h) k := by
  have h1 : ¬ (1 < getHeight l - getHeight r) := by omega
  have h2 : ¬ (getHeight l - getHeight r < -1) := by omega
  have h3 : ¬ (1 < |getHeight l - getHeight r|) := not_lt.mpr (abs_le.mpr ⟨hb2, hb1⟩)
  refine ⟨by simp only [getBalance]; omega, by simp only [getBalance]; omega, ?_, ?_,
    false, false, false, false, ?_, ?_, ?_, ?_, ?_⟩
  · intro e; simp only [getBalance] at e; omega
  · intro e; simp only [getBalance] at e; omega
  · simp [leftHeavyCond, getBalance, h1]
  · simp [rightHeavyCond, getBalance, h2]
  · simp [leftHeavyCond, getBalance, h1]
  · simp [rightHeavyCond, getBalance, h2]
  · simp [getBalance, h3]

theorem caseSplit_left (d ld : α) (ll lr r : NodePtr α) (lh h : Int) (k : α)
    (hb : lh = getHeight r + 2) (hk : k < ld ∨ ld < k) :
    CaseSplit (node d (node ld ll lr lh) r h) k := by
  have h1 : 1 < lh - getHeight r := by omega
  have h2 : ¬ (lh - getHeight r < -1) := by omega
  have h3 : 1 < |lh - getHeight r| := by
    rw [show lh - getHeight r = 2 by omega]; norm_num
  refine ⟨by simp only [getBalance, getHeight_node]; omega,
    by simp only [getBalance, getHeight_node]; omega, ?_, ?_,
    decide (k < ld), false, decide (k > ld), false, ?_, ?_, ?_, ?_, ?_⟩
  · intro _
    exact ⟨ld, rfl, by rcases hk with hk | hk; exact hk.ne; exact hk.ne'⟩
  · intro e; simp only [getBalance, getHeight_node] at e; omega
  · simp [leftHeavyCond, getBalance, h1, leftData]
  · simp [rightHeavyCond, getBalance, h2]
  · simp [leftHeavyCond, getBalance, h1, leftData]
  · simp [rightHeavyCond, getBalance, h2]
  · rcases hk with hk | hk
    · simp [getBalance, h3, hk, not_lt.mpr hk.le]
    · simp [getBalance, h3, hk, not_lt.mpr hk.le]

theorem caseSplit_right (d rd : α) (l rl rr : NodePtr α) (rh h : Int) (k : α)
    (hb : rh = getHeight l + 2) (hk : k < rd ∨ rd < k) :
    CaseSplit (node d l (node rd rl rr rh) h) k := by
  have h1 : ¬ (1 < getHeight l - rh) := by omega
  have h2 : getHeight l - rh < -1 := by omega
  have h3 : 1 < |getHeight l - rh| := by
    rw [show getHeight l - rh = -2 by omega]; norm_num
  refine ⟨by simp only [getBalance, getHeight_node]; omega,
    by simp only [getBalance, getHeight_node]; omega, ?_, ?_,
    false, decide (k > rd), false, decide (k < rd), ?_, ?_, ?_, ?_, ?_⟩
  · intro e; simp only [getBalance, getHeight_node] at e; omega
  · intro _
    exact ⟨rd, rfl, by rcases hk with hk | hk; exact hk.ne; exact hk.ne'⟩
  · simp [leftHeavyCond, getBalance, h1]
  · simp [rightHeavyCond, getBalance, h2, rightData]
  · simp [leftHeavyCond, getBalance, h1]
  · simp [rightHeavyCond, getBalance, h2, rightData]
  · rcases hk with hk | hk
    · simp [getBalance, h3, hk, not_lt.mpr hk.le]
    · simp [getBalance, h3, hk, not_lt.mpr hk.le]

/-- The case split at the root of a tree satisfying the invariants. -/
theorem caseSplit_node (d : α) (l r : NodePtr α) (h : Int) (k : α)
    (ht : IsAVL (node d l r h)) (hkd : k ≠ d) :
    ∃ m0 m, descend (node d l r h) k = some m0 ∧
      insert (node d l r h) k = rebalance m0 k ∧
      updateHeight m0 = some m ∧ CaseSplit m k := by
  have havl := isAVL_left d l r h ht
  have havr := isAVL_right d l r h ht
  obtain ⟨_, ⟨_, hhl, hhr⟩, ⟨hb, _, _⟩⟩ := ht
  rw [abs_le] at hb
  have hl0 := getHeight_nonneg l hhl
  have hr0 := getHeight_nonneg r hhr
  rcases lt_or_gt_of_ne hkd with hlt | hgt
  · obtain ⟨l1, hins, hs⟩ := insert_spec l k havl
    have hsh := hs.height
    refine ⟨node d l1 r h, node d l1 r (1 + max (getHeight l1) (getHeight r)),
      by simp only [descend, if_pos hlt, hins, Option.some_bind],
      by simp only [insert, if_pos hlt, hins, Option.some_bind], rfl, ?_⟩
    by_cases hc : getHeight l1 ≤ getHeight r + 1
    · exact caseSplit_none d l1 r _ k (by omega)
        (by rcases hsh with h1 | ⟨h1, _⟩ <;> omega)
    · have hgrew : Grew l1 k := by
        rcases hsh with h1 | ⟨h1, h2 | h2⟩
        · omega
        · subst h2; simp only [getHeight_null] at h1; omega
        · exact h2
      cases l1 with
      | null => exact absurd hgrew (by simp [Grew])
      | node ld ll lr lh =>
        simp only [getHeight_node] at hc hsh
        exact caseSplit_left d ld ll lr r lh _ k
          (by rcases hsh with h1 | ⟨h1, _⟩ <;> omega)
          (by rcases hgrew with ⟨h1, _⟩ | ⟨h1, _⟩; exact Or.inl h1; exact Or.inr h1)
  · obtain ⟨r1, hins, hs⟩ := insert_spec r k havr
    have hsh := hs.height
    have hnlt : ¬ k < d := not_lt.mpr (le_of_lt hgt)
    refine ⟨node d l r1 h, node d l r1 (1 + max (getHeight l) (getHeight r1)),
      by simp only [descend, if_neg hnlt, if_pos hgt, hins, Option.some_bind],
      by simp only [insert, if_neg hnlt, if_pos hgt, hins, Option.some_bind], rfl, ?_⟩
    by_cases hc : getHeight r1 ≤ getHeight l + 1
    · exact caseSplit_none d l r1 _ k
        (by rcases hsh with h1 | ⟨h1, _⟩ <;> omega) (by omega)
    · have hgrew : Grew r1 k := by
        rcases hsh with h1 | ⟨h1, h2 | h2⟩
        · omega
        · subst h2; simp only [getHeight_null] at h1; omega
        · exact h2
      cases r1 with
      | null => exact absurd hgrew (by simp [Grew])
      | node rd rl rr rh =>
        simp only [getHeight_node] at hc hsh
        exact caseSplit_right d rd l rl rr rh _ k
          (by rcases hsh with h1 | ⟨h1, _⟩ <;> omega)
          (by rcases hgrew with ⟨h1, _⟩ | ⟨h1, _⟩; exact Or.inl h1; exact Or.inr h1)

/-- Claim C14 (rebalancing case split). For every tree `t` satisfying the BST order,
height and balance invariants and every node `n` of it on the search path of a key `k`
different from `n`'s key: the recursive insert into the chosen child returns (`m0` is the
node with the new child, on which lines 73-99 then run) and after `updateHeight` the
node `m` has a balance factor `height(left) - height(right)` in `{-2, -1, 0, 1, 2}`. When
it is `2` the left child is present and `k` differs from its key, when it is `-2` the
right child is present and `k` differs from its key. The four case conditions of the
source, Left-Left `c1`, Right-Right `c2`, Left-Right `c3`, Right-Left `c4`, can all be
evaluated; exactly one of them holds when `|balance| > 1` and none holds otherwise. -/
theorem rebalance_case_split (t : NodePtr α) (k : α) (ht : IsAVL t) (n : NodePtr α)
    (hn : n ∈ searchPath t k) (hk : rootKey n ≠ some k) :
    ∃ m0 m, descend n k = some m0 ∧ insert n k = rebalance m0 k ∧
      updateHeight m0 = some m ∧
      -2 ≤ getBalance m ∧ getBalance m ≤ 2 ∧
      (getBalance m = 2 → ∃ ld, leftData m = some ld ∧ k ≠ ld) ∧
      (getBalance m = -2 → ∃ rd, rightData m = some rd ∧ k ≠ rd) ∧
      ∃ c1 c2 c3 c4,
        leftHeavyCond m (getBalance m) k false = some c1 ∧
        rightHeavyCond m (getBalance m) k true = some c2 ∧
        leftHeavyCond m (getBalance m) k true = some c3 ∧
        rightHeavyCond m (getBalance m) k false = some c4 ∧
        [c1, c2, c3, c4].count true = if 1 < |getBalance m| then 1 else 0 := by
  have havl := isAVL_of_mem_searchPath t k ht n hn
  cases n with
  | null => exact absurd rfl (ne_null_of_mem_searchPath t k _ hn)
  | node d l r h =>
    have hkd : k ≠ d := fun e => hk (by rw [e]; rfl)
    exact caseSplit_node d l r h k havl hkd

theorem rebalance_case_split_witness :
    IsAVL (node (40 : Int) (node 30 (node 20 null null 1) null 2) (node 50 null null 1) 3) ∧
    node (30 : Int) (node 20 null null 1) null 2 ∈
      searchPath (node (40 : Int) (node 30 (node 20 null null 1) null 2)
        (node 50 null null 1) 3) 10 ∧
    rootKey (node (30 : Int) (node 20 null null 1) null 2) ≠ some 10 ∧
    ∃ m0 m, descend (node (30 : Int) (node 20 null null 1) null 2) 10 = some m0 ∧
      insert (node (30 : Int) (node 20 null null 1) null 2) 10 = rebalance m0 10 ∧
      updateHeight m0 = some m ∧
      -2 ≤ getBalance m ∧ getBalance m ≤ 2 ∧
      (getBalance m = 2 → ∃ ld, leftData m = some ld ∧ (10 : Int) ≠ ld) ∧
      (getBalance m = -2 → ∃ rd, rightData m = some rd ∧ (10 : Int) ≠ rd) ∧
      ∃ c1 c2 c3 c4,
        leftHeavyCond m (getBalance m) 10 false = some c1 ∧
        rightHeavyCond m (getBalance m) 10 true = some c2 ∧
        leftHeavyCond m (getBalance m) 10 true = some c3 ∧
        rightHeavyCond m (getBalance m) 10 false = some c4 ∧
        [c1, c2, c3, c4].count true = if 1 < |getBalance m| then 1 else 0 :=
  ⟨by decide, by decide, by decide,
    rebalance_case_split
      (node (40 : Int) (node 30 (node 20 null null 1) null 2) (node 50 null null 1) 3) 10
      (by decide) (node (30 : Int) (node 20 null null 1) null 2) (by decide) (by decide)⟩

end Ordered

end AVLTree
